import Mathlib

/-!
Verification development for the LLMPress repository.

Shallow embedding of the core codec:
* `Encoder` models `src/Backend/Compression/Encoder.py`
* `Decoder` models `src/Backend/Decompression/Decoder.py`
* `Splitter` models `src/Backend/Compression/file_splitter.py`
* `AI` models `src/AI/llm_tokenize.py`, `src/AI/llm_detokenize.py`,
  `src/AI/token_utils.py` and the call contract of `src/AI/ChatGPT2.py`
* `Pipeline` models `src/Backend/Compression/compressor.py` and
  `src/Backend/Decompression/decompressor.py`

Conventions: Python `bytes` are `List Nat` of values below 256; Python token
tuples `("r", n)`, `("e", n)`, `("<BREAK>", 0)` are the inductive `Tok`;
Python exceptions (`ValueError`, `IndexError`, custom errors) are `Except
String`.  Recursions that Python runs as loops with a strictly decreasing
measure are given a `fuel` argument that is always started at a value the
loop can never exhaust (each iteration consumes at least one list element,
and the fuel starts at the list length); the fuel-exhausted branches are
unreachable for the arguments the callers pass.
-/

/-- The tagged token tuples of the source: `("r", n)` is `Tok.rank n`,
`("e", n)` is `Tok.explicit n`, and `("<BREAK>", 0)` is `Tok.brk`. -/
inductive Tok where
  | rank (v : Nat)
  | explicit (v : Nat)
  | brk
deriving DecidableEq, Repr

/-- `token[1]` of the source tuples (`("<BREAK>", 0)` carries payload 0). -/
def Tok.val : Tok → Nat
  | .rank v => v
  | .explicit v => v
  | .brk => 0

/-- `token[0] == "r"`. -/
def Tok.is_rank : Tok → Bool
  | .rank _ => true
  | _ => false

/-- `token[0] == "<BREAK>"`. -/
def Tok.is_break : Tok → Bool
  | .brk => true
  | _ => false

namespace Encoder

/-- `Encoder.is_break_token`. -/
def is_break_token (token : Tok) : Bool := token.is_break

/-- `Encoder.handle_break_token`: the single byte 0xFF. -/
def handle_break_token : List Nat := [0xFF]

/-- `Encoder.handle_rank_byte`.  The Python guard `0 <= rank <= 63` raises
`ValueError` outside the range; `rank` is a `Nat` so only the upper bound
remains. -/
def handle_rank_byte (token : Tok) : Except String (List Nat) :=
  let rank := token.val
  if rank ≤ 63 then .ok [0b00000000 ||| rank]
  else .error "Rank must be in the range 0-63."

/-- `Encoder.check_double_byte`. -/
def check_double_byte (token1 token2 : Tok) : Bool :=
  token1.is_rank && token2.is_rank && token1.val < 8 && token2.val < 8

/-- `Encoder.handle_double_byte`. -/
def handle_double_byte (token1 token2 : Tok) : Except String (List Nat) :=
  let rank1 := token1.val
  let rank2 := token2.val
  if rank1 ≤ 7 ∧ rank2 ≤ 7 then .ok [0b01000000 ||| (rank1 <<< 3) ||| rank2]
  else .error "Both ranks must be in the range 0-7."

/-- `Encoder.count_leading_zeros`. -/
def count_leading_zeros : List Tok → Nat
  | [] => 0
  | token :: rest =>
    if token.is_rank && token.val == 0 then 1 + count_leading_zeros rest else 0

/-- Recursion worker for `Encoder.handle_continuous_zero_bytes`.  The Python
function recurses on `count - 62` when `count > 62`; each recursive call
lowers `count` by 62 ≥ 1, so starting the fuel at `count` makes the fuel-out
branch unreachable. -/
def handle_continuous_zero_bytes_go : Nat → Nat → List Nat
  | 0, count => [0b11000000 ||| count]
  | fuel + 1, count =>
    if count ≤ 62 then [0b11000000 ||| count]
    else (0b11000000 ||| 62) :: handle_continuous_zero_bytes_go fuel (count - 62)

/-- `Encoder.handle_continuous_zero_bytes`: at most 62 zeros per byte (to
avoid producing 0xFF), longer runs split greedily. -/
def handle_continuous_zero_bytes (count : Nat) : List Nat :=
  handle_continuous_zero_bytes_go count count

/-- `Encoder.encode_explicit_token`: the 2/3/4-byte explicit formats with
shift amounts 7/14/21 (matching `Decoder.handle_explicit_bytes`). -/
def encode_explicit_token (token : Tok) : Except String (List Nat) :=
  let val := token.val
  if val < 1 <<< 13 then
    .ok [0b10000000 ||| ((val >>> 7) &&& 0b00111111),
         0b10000000 ||| (val &&& 0b01111111)]
  else if val < 1 <<< 20 then
    .ok [0b10000000 ||| ((val >>> 14) &&& 0b00111111),
         (val >>> 7) &&& 0b01111111,
         0b10000000 ||| (val &&& 0b01111111)]
  else if val < 1 <<< 27 then
    .ok [0b10000000 ||| ((val >>> 21) &&& 0b00111111),
         (val >>> 14) &&& 0b01111111,
         (val >>> 7) &&& 0b01111111,
         0b10000000 ||| (val &&& 0b01111111)]
  else .error "Explicit token value too large."

/-- `Encoder.encode_next_bytes`: pops one group of tokens off the front of
the list and returns its bytes together with the remaining tokens.  The
Python function mutates the list with `pop(0)`; here the remainder is
returned.  The caller guarantees a non-empty list (`while tokens_copy`). -/
def encode_next_bytes : List Tok → Except String (List Nat × List Tok)
  | [] => .error "encode_next_bytes called with no tokens"
  | token :: rest =>
    if is_break_token token then
      .ok (handle_break_token, rest)
    else if 2 ≤ count_leading_zeros (token :: rest) then
      .ok (handle_continuous_zero_bytes (count_leading_zeros (token :: rest)),
           (token :: rest).drop (count_leading_zeros (token :: rest)))
    else
      match rest with
      | token2 :: rest2 =>
        if check_double_byte token token2 then
          (handle_double_byte token token2).map (fun bs => (bs, rest2))
        else if token.is_rank then
          (handle_rank_byte token).map (fun bs => (bs, rest))
        else
          (encode_explicit_token token).map (fun bs => (bs, rest))
      | [] =>
        if token.is_rank then
          (handle_rank_byte token).map (fun bs => (bs, rest))
        else
          (encode_explicit_token token).map (fun bs => (bs, rest))

/-- The `while tokens_copy:` loop of `Encoder.encode_tokens`.  Each call to
`encode_next_bytes` consumes at least one token, so fuel `tokens.length`
never runs out. -/
def encode_loop : Nat → List Tok → Except String (List Nat)
  | _, [] => .ok []
  | 0, _ :: _ => .error "fuel exhausted"
  | fuel + 1, token :: rest =>
    match encode_next_bytes (token :: rest) with
    | .error e => .error e
    | .ok (bs, rem) =>
      match encode_loop fuel rem with
      | .error e => .error e
      | .ok tl => .ok (bs ++ tl)

/-- `Encoder.encode_tokens`: the window size is encoded first (the Python
code wraps it as the tuple `("<WINDOW_SIZE>", window_size)`, whose tag is
ignored by `encode_explicit_token`), then the token groups. -/
def encode_tokens (tokens : List Tok) (window_size : Nat) : Except String (List Nat) :=
  match encode_explicit_token (Tok.explicit window_size) with
  | .error e => .error e
  | .ok pre =>
    match encode_loop tokens.length tokens with
    | .error e => .error e
    | .ok body => .ok (pre ++ body)

end Encoder

namespace Decoder

/-- `Decoder.handle_break_token`. -/
def handle_break_token : Tok := Tok.brk

/-- `Decoder.handle_rank_byte`. -/
def handle_rank_byte (byte : Nat) : Tok := Tok.rank (byte &&& 0b00111111)

/-- `Decoder.handle_double_byte`. -/
def handle_double_byte (byte : Nat) : List Tok :=
  [Tok.rank ((byte &&& 0b00111000) >>> 3), Tok.rank (byte &&& 0b00000111)]

/-- `Decoder.explicit_bytes_length`: width of the explicit token starting at
`idx`, determined by scanning for a byte with the MSB set, with the
fall-back widths of the source when the data ends early. -/
def explicit_bytes_length (bytes_data : List Nat) (idx : Nat) : Nat :=
  if bytes_data.length ≤ idx + 1 then 1
  else if (bytes_data.getD (idx + 1) 0) &&& 0b10000000 ≠ 0 then 2
  else if idx + 2 < bytes_data.length then
    (if (bytes_data.getD (idx + 2) 0) &&& 0b10000000 ≠ 0 then 3
     else if idx + 3 < bytes_data.length ∧ (bytes_data.getD (idx + 3) 0) &&& 0b10000000 ≠ 0 then 4
     else 3)
  else 2

/-- `Decoder.handle_explicit_bytes` with all its `ValueError` validations;
shift amounts 7/14/21. -/
def handle_explicit_bytes (bytes_data : List Nat) : Except String Tok :=
  match bytes_data with
  | [] => .error "Empty bytes provided for explicit token decoding"
  | [b0] =>
    if b0 &&& 0b10000000 = 0 then .error "First byte of explicit token must have MSB set"
    else .ok (Tok.explicit (b0 &&& 0b00111111))
  | [b0, b1] =>
    if b0 &&& 0b10000000 = 0 then .error "First byte of explicit token must have MSB set"
    else if b1 &&& 0b10000000 = 0 then .error "Stop byte must have MSB set"
    else .ok (Tok.explicit (((b0 &&& 0b00111111) <<< 7) ||| (b1 &&& 0b01111111)))
  | [b0, b1, b2] =>
    if b0 &&& 0b10000000 = 0 then .error "First byte of explicit token must have MSB set"
    else if b1 &&& 0b10000000 ≠ 0 then .error "Middle byte must not have MSB set"
    else if b2 &&& 0b10000000 = 0 then .error "Stop byte must have MSB set"
    else .ok (Tok.explicit (((b0 &&& 0b00111111) <<< 14) ||| ((b1 &&& 0b01111111) <<< 7) |||
                            (b2 &&& 0b01111111)))
  | [b0, b1, b2, b3] =>
    if b0 &&& 0b10000000 = 0 then .error "First byte of explicit token must have MSB set"
    else if b1 &&& 0b10000000 ≠ 0 then .error "First middle byte must not have MSB set"
    else if b2 &&& 0b10000000 ≠ 0 then .error "Second middle byte must not have MSB set"
    else if b3 &&& 0b10000000 = 0 then .error "Stop byte must have MSB set"
    else .ok (Tok.explicit (((b0 &&& 0b00111111) <<< 21) ||| ((b1 &&& 0b01111111) <<< 14) |||
                            ((b2 &&& 0b01111111) <<< 7) ||| (b3 &&& 0b01111111)))
  | _ => .error "Invalid explicit token length: must be 1-4 bytes"

/-- `Decoder.handle_continuous_zero_byte`. -/
def handle_continuous_zero_byte (byte : Nat) : List Tok × Nat :=
  (List.replicate (byte &&& 0b00111111) (Tok.rank 0), 1)

/-- `Decoder.handle_next_bytes`: dispatch on the two high bits of the lead
byte, with 0xFF checked first.  The four two-bit patterns are exhaustive, so
the Python function's final `return [], idx + 1` default is unreachable. -/
def handle_next_bytes (bytes_data : List Nat) (idx : Nat) : Except String (List Tok × Nat) :=
  if bytes_data.length ≤ idx then .ok ([], idx)
  else
    let b := bytes_data.getD idx 0
    if b = 0xFF then .ok ([handle_break_token], idx + 1)
    else if b &&& 0b11000000 = 0b00000000 then .ok ([handle_rank_byte b], idx + 1)
    else if b &&& 0b11000000 = 0b01000000 then .ok (handle_double_byte b, idx + 1)
    else if b &&& 0b11000000 = 0b10000000 then
      let length := explicit_bytes_length bytes_data idx
      if idx + length ≤ bytes_data.length then
        match handle_explicit_bytes ((bytes_data.drop idx).take length) with
        | .error e => .error e
        | .ok t => .ok ([t], idx + length)
      else .ok ([Tok.explicit 0], bytes_data.length)
    else if b &&& 0b11000000 = 0b11000000 then
      let zs := handle_continuous_zero_byte b
      .ok (zs.1, idx + zs.2)
    else .ok ([], idx + 1)

/-- `Decoder.extract_window_size`: reads the leading explicit token; any
failed guard falls through to the default `(64, 0)`. -/
def extract_window_size (data : List Nat) : Except String (Nat × Nat) :=
  if 2 ≤ data.length then
    if data.getD 0 0 &&& 0b11000000 = 0b10000000 then
      let length := explicit_bytes_length data 0
      if length ≤ data.length then
        match handle_explicit_bytes (data.take length) with
        | .error e => .error e
        | .ok t => .ok (t.val, length)
      else .ok (64, 0)
    else .ok (64, 0)
  else .ok (64, 0)

/-- The `while idx < len(data):` loop of `Decoder.decode_bytes`.  Each
iteration advances `idx` by at least one (the source forces `idx += 1` when
`handle_next_bytes` leaves it unchanged), so fuel `data.length` never runs
out when the loop starts at an index `≤ data.length`. -/
def decode_loop : Nat → List Nat → Nat → Except String (List Tok)
  | 0, data, idx => if data.length ≤ idx then .ok [] else .error "fuel exhausted"
  | fuel + 1, data, idx =>
    if data.length ≤ idx then .ok []
    else
      match handle_next_bytes data idx with
      | .error e => .error e
      | .ok (new_tokens, new_idx) =>
        match decode_loop fuel data (if new_idx = idx then idx + 1 else new_idx) with
        | .error e => .error e
        | .ok rest => .ok (new_tokens ++ rest)

/-- `Decoder.decode_bytes`. -/
def decode_bytes (data : List Nat) : Except String (List Tok × Nat) :=
  if data = [] then .error "Empty data provided for decoding"
  else
    match extract_window_size data with
    | .error e => .error e
    | .ok (window_size, idx) =>
      match decode_loop data.length data idx with
      | .error e => .error e
      | .ok tokens => .ok (tokens, window_size)

end Decoder

namespace Splitter

/-- The character class `[-=*]` of the primary split pattern. -/
def is_hr_char (c : Char) : Bool := c == '-' || c == '=' || c == '*'

/-- Whitespace as matched by Python's `re` class `\s` on `str` (the six
ASCII whitespace characters plus the Unicode whitespace code points).  The
chunk-reconstruction theorem below does not depend on the exact extension of
this set. -/
def is_py_space (c : Char) : Bool :=
  c == ' ' || c == '\t' || c == '\n' || c == '\r' ||
  c.toNat == 0x0b || c.toNat == 0x0c ||
  c.toNat == 0x1c || c.toNat == 0x1d || c.toNat == 0x1e || c.toNat == 0x1f ||
  c.toNat == 0x85 || c.toNat == 0xa0 || c.toNat == 0x1680 ||
  (0x2000 ≤ c.toNat && c.toNat ≤ 0x200a) ||
  c.toNat == 0x2028 || c.toNat == 0x2029 || c.toNat == 0x202f ||
  c.toNat == 0x205f || c.toNat == 0x3000

/-- Leftmost match of the primary pattern `\n\n|\n[-=*]{3,}\n` at the head
of `s`: the alternatives are tried in order, `{3,}` is greedy, and since
`[-=*]` cannot match `\n` the greedy run needs no backtracking. -/
def match_primary : List Char → Option Nat
  | '\n' :: '\n' :: _ => some 2
  | '\n' :: rest =>
    let run := rest.takeWhile is_hr_char
    if 3 ≤ run.length ∧ (rest.drop run.length).head? = some '\n' then
      some (run.length + 2)
    else none
  | _ => none

/-- Match of the secondary pattern `\n|(?<=[.!?])\s+` at the head of `s`,
where `prev` is the character just before the current position (the
look-behind can inspect a character consumed by an earlier match, so it is
threaded through the scan).  `\s+` is greedy with nothing after it, so it
takes the maximal whitespace run. -/
def match_secondary (prev : Option Char) : List Char → Option Nat
  | [] => none
  | c :: rest =>
    if c = '\n' then some 1
    else if (prev = some '.' ∨ prev = some '!' ∨ prev = some '?') ∧ is_py_space c then
      some (1 + (rest.takeWhile is_py_space).length)
    else none

/-- `re.split` with a capturing group: scan left to right, emit the text
before each leftmost match and the match itself, and finally the trailing
text, producing the alternating `[text, delim, …, text]` list Python
returns.  Every match consumes at least one character, so there are at most
`s.length` recursive calls and fuel `s.length` never runs out; the
fuel-exhausted branch still returns all remaining characters so that
concatenation is preserved unconditionally. -/
def re_split_go (matcher : Option Char → List Char → Option Nat) :
    Nat → Option Char → List Char → List Char → List (List Char)
  | _, _, acc, [] => [acc.reverse]
  | 0, _, acc, s => [acc.reverse ++ s]
  | fuel + 1, prev, acc, c :: rest =>
    match matcher prev (c :: rest) with
    | some n =>
      acc.reverse :: (c :: rest).take n ::
        re_split_go matcher fuel ((c :: rest).take n).getLast? [] ((c :: rest).drop n)
    | none => re_split_go matcher fuel (some c) (c :: acc) rest

/-- `re.split(f'({pattern})', s)` for one of the two patterns above. -/
def re_split (matcher : Option Char → List Char → Option Nat) (s : List Char) :
    List (List Char) :=
  re_split_go matcher s.length none [] s

/-- The pairing `for i in range(0, len(segments), 2): segment = segments[i];
delimiter = segments[i+1] if i+1 < len(segments) else ""`. -/
def pair_up : List (List Char) → List (List Char × List Char)
  | [] => []
  | [seg] => [(seg, [])]
  | seg :: delim :: rest => (seg, delim) :: pair_up rest

/-- One iteration of the first accumulation loop of `split_text` (state:
`(chunks, current_chunk)`, input: one `(segment, delimiter)` pair). -/
def accumulate_step (min_chunk_size max_chunk_size : Nat)
    (st : List (List Char) × List Char) (p : List Char × List Char) :
    List (List Char) × List Char :=
  let proposed_addition := p.1 ++ p.2
  if max_chunk_size < st.2.length + proposed_addition.length ∧ min_chunk_size ≤ st.2.length then
    (st.1 ++ [st.2], proposed_addition)
  else
    let current2 := st.2 ++ proposed_addition
    if min_chunk_size ≤ current2.length ∧ p.2 ≠ [] then (st.1 ++ [current2], [])
    else (st.1, current2)

/-- The first accumulation loop of `split_text`. -/
def accumulate_pairs (min_chunk_size max_chunk_size : Nat)
    (pairs : List (List Char × List Char)) : List (List Char) × List Char :=
  pairs.foldl (accumulate_step min_chunk_size max_chunk_size) ([], [])

/-- The leftover handling of `split_text` (lines 116-130): a non-empty
final `current_chunk` shorter than `min_chunk_size` is merged into the last
chunk when the merged size stays within `1.5 × max_chunk_size`, otherwise
both are kept.  Python compares `len(merged) <= max_chunk_size * 1.5` with
exact float arithmetic, which for these integer sizes is
`2 * len(merged) ≤ 3 * max_chunk_size`. -/
def handle_leftover (min_chunk_size max_chunk_size : Nat)
    (chunks : List (List Char)) (current_chunk : List Char) : List (List Char) :=
  if current_chunk = [] then chunks
  else if current_chunk.length < min_chunk_size ∧ chunks ≠ [] then
    let last_chunk := chunks.getLastD []
    let merged := last_chunk ++ current_chunk
    if 2 * merged.length ≤ 3 * max_chunk_size then chunks.dropLast ++ [merged]
    else chunks.dropLast ++ [last_chunk, current_chunk]
  else chunks ++ [current_chunk]

/-- One iteration of the secondary accumulation loop used on oversized
chunks. -/
def resplit_step (min_chunk_size max_chunk_size : Nat)
    (st : List (List Char) × List Char) (p : List Char × List Char) :
    List (List Char) × List Char :=
  if max_chunk_size < st.2.length + p.1.length + p.2.length ∧ min_chunk_size ≤ st.2.length then
    (st.1 ++ [st.2], p.1 ++ p.2)
  else (st.1, st.2 ++ p.1 ++ p.2)

/-- Re-splitting of one oversized chunk at line breaks and sentence ends
(`re.split(r'(\n|(?<=[.!?])\s+)', large_chunk)` plus the accumulation
loop). -/
def resplit_large_chunk (min_chunk_size max_chunk_size : Nat)
    (large_chunk : List Char) : List (List Char) :=
  let simple_breaks := re_split match_secondary large_chunk
  let st := (pair_up simple_breaks).foldl (resplit_step min_chunk_size max_chunk_size) ([], [])
  if st.2 ≠ [] then st.1 ++ [st.2] else st.1

/-- The `while i < len(chunks)` pass of `split_text`: each chunk larger
than `1.5 × max_chunk_size` is replaced in place by its re-split, and the
index jumps past the replacement (`i += len(sub_chunks)`), so every
original chunk is examined exactly once. -/
def resplit_oversized (min_chunk_size max_chunk_size : Nat)
    (chunks : List (List Char)) : List (List Char) :=
  chunks.flatMap (fun c =>
    if 3 * max_chunk_size < 2 * c.length then
      resplit_large_chunk min_chunk_size max_chunk_size c
    else [c])

/-- Worker for the fallback equal-slice chunking.  Each step consumes
`step ≥ 1` characters, so fuel `text.length` never runs out. -/
def fallback_go : Nat → Nat → List Char → List (List Char)
  | _, _, [] => []
  | 0, _, t => [t]
  | fuel + 1, step, t => t.take step :: fallback_go fuel step (t.drop step)

/-- The fallback `for i in range(0, len(text), chunk_size)` slicing used
when the integrity check fails.  Python would raise on a zero step; the
theorems below show the integrity check never fails, so this branch is
unreachable anyway. -/
def fallback_chunks (max_chunk_size : Nat) (text : List Char) : List (List Char) :=
  if max_chunk_size = 0 then [] else fallback_go text.length max_chunk_size text

/-- `file_splitter.split_text` (the `file_type` argument does not influence
the algorithm). -/
def split_text (text : List Char) (min_chunk_size max_chunk_size : Nat) :
    List (List Char) :=
  let segments := re_split (fun _ s => match_primary s) text
  let st := accumulate_pairs min_chunk_size max_chunk_size (pair_up segments)
  let chunks2 := handle_leftover min_chunk_size max_chunk_size st.1 st.2
  let chunks3 := resplit_oversized min_chunk_size max_chunk_size chunks2
  if chunks3.flatten.length ≠ text.length then fallback_chunks max_chunk_size text
  else chunks3

end Splitter

namespace AI

/-- The predictor interface backed by `ChatGPT2.GPT2`:
`tokenize(text)`, `detokenize(tokens)` and `list_rank_tokens(tokens, k)`.
Every call site in the source leaves `k` at its default of 64. -/
structure Model where
  tokenize : List Char → List Nat
  detokenize : List Nat → List Char
  list_rank_tokens : List Nat → Nat → List Nat

/-- `llm_tokenize.handle_rank_token` (identical to
`token_utils.find_token_rank`): the context is the window-truncated slice
`tokens[max(0, i - window_size):i]`, the candidate list is
`model.list_rank_tokens(context)` with its default `k = 64`, and the result
is the first index of the next token in that list (`none` models the `-1`
sentinel). -/
def handle_rank_token_enc (M : Model) (window_size current_index : Nat)
    (tokens : List Nat) : Option Nat :=
  let context_tensor := (tokens.take current_index).drop (current_index - window_size)
  let next_token := tokens.getD current_index 0
  let ranks := M.list_rank_tokens context_tensor 64
  if next_token ∈ ranks then some (ranks.indexOf next_token) else none

/-- `llm_tokenize.handle_next_token` (identical to
`token_utils.handle_token_for_encoding`); callers only use indices below
`len(tokens)`, so the out-of-bounds `ValueError` guard is not modelled. -/
def handle_next_token_enc (M : Model) (window_size current_index : Nat)
    (tokens : List Nat) : Tok :=
  match handle_rank_token_enc M window_size current_index tokens with
  | some position => Tok.rank position
  | none => Tok.explicit (tokens.getD current_index 0)

/-- `llm_tokenize.encode_text`: the leading token is always emitted as an
explicit token (`tokens[0]` raises `IndexError` on an empty tokenization,
modelled as an error). -/
def encode_text (M : Model) (text : List Char) (window_size : Nat) :
    Except String (List Tok) :=
  match M.tokenize text with
  | [] => .error "IndexError: tokens is empty"
  | t0 :: rest =>
    .ok (Tok.explicit t0 ::
      (List.range rest.length).map (fun j =>
        handle_next_token_enc M window_size (j + 1) (M.tokenize text)))

/-- `llm_detokenize.handle_rank_token`: the context is the last
`window_size` decoded tokens, the candidate list is
`model.list_rank_tokens(context)` with its default `k = 64`, and `ranks[rank]`
raises `IndexError` when the rank is out of bounds — there is no check of
`rank` against `window_size` and no special case for an empty context. -/
def handle_rank_token_dec (M : Model) (rank : Nat) (context_tokens : List Nat)
    (window_size : Nat) : Except String Nat :=
  let window_context := context_tokens.drop (context_tokens.length - window_size)
  let ranks := M.list_rank_tokens window_context 64
  if h : rank < ranks.length then .ok (ranks.get ⟨rank, h⟩)
  else .error "IndexError: list index out of range"

/-- `llm_detokenize.handle_next_token`: every tag other than `"r"` goes
through `handle_explicit_token`, which returns `token[1]` — for the tuple
`("<BREAK>", 0)` that is 0. -/
def handle_next_token_dec (M : Model) (token : Tok) (context_tokens : List Nat)
    (window_size : Nat) : Except String Nat :=
  match token with
  | .rank r => handle_rank_token_dec M r context_tokens window_size
  | .explicit v => .ok v
  | .brk => .ok 0

/-- The accumulation loop of `llm_detokenize.decode_tokens`. -/
def decode_tokens_go (M : Model) (window_size : Nat) :
    List Tok → List Nat → Except String (List Nat)
  | [], decoded_tokens => .ok decoded_tokens
  | t :: ts, decoded_tokens =>
    match handle_next_token_dec M t decoded_tokens window_size with
    | .error e => .error e
    | .ok v => decode_tokens_go M window_size ts (decoded_tokens ++ [v])

/-- `llm_detokenize.decode_tokens`. -/
def decode_tokens (M : Model) (tokens : List Tok) (window_size : Nat) :
    Except String (List Char) :=
  match decode_tokens_go M window_size tokens [] with
  | .error e => .error e
  | .ok decoded_tokens => .ok (M.detokenize decoded_tokens)

end AI

namespace Pipeline

/-- `compressor.combine_tokenized_chunks`: the first chunk, then each later
chunk preceded by a `("<BREAK>", 0)` marker (extending with an empty chunk
adds nothing, so the `if chunk:` guards of the source are no-ops). -/
def combine_tokenized_chunks (tokenized_chunks : List (List Tok)) : List Tok :=
  match tokenized_chunks with
  | [] => []
  | c0 :: rest => c0 ++ rest.flatMap (fun chunk => Tok.brk :: chunk)

/-- Scanning worker for `decompressor.split_tokens_by_breaks`. -/
def split_tokens_by_breaks_go : List Tok → List Tok → List (List Tok)
  | [], acc => if acc = [] then [] else [acc.reverse]
  | t :: ts, acc =>
    if t.is_break then acc.reverse :: split_tokens_by_breaks_go ts []
    else split_tokens_by_breaks_go ts (t :: acc)

/-- `decompressor.split_tokens_by_breaks`.  The source slices at the break
indices: empty input gives `[]`, no breaks give `[tokens]`, the slices
between consecutive breaks are all kept (including empty ones), and the
trailing slice is appended only when non-empty (`if start_idx <
len(tokens)`).  The scan above reproduces exactly that. -/
def split_tokens_by_breaks (tokens : List Tok) : List (List Tok) :=
  split_tokens_by_breaks_go tokens []

/-- `tokenizer.tokenize_chunks` → `CeleryClient.tokenize_chunks` → one
`tokenize_text` task per chunk running `llm_tokenize.encode_text`.  A chunk
whose task raises is replaced by the empty list (the client catches the
exception and appends `[]`). -/
def tokenize_chunks (M : AI.Model) (window_size : Nat) (texts : List (List Char)) :
    List (List Tok) :=
  texts.map (fun c =>
    match AI.encode_text M c window_size with
    | .ok ts => ts
    | .error _ => [])

/-- The core of `compressor.compress` on an in-memory text (the file branch
reads the file's contents and continues identically; size bookkeeping and
output saving are I/O and omitted): chunk, tokenize each chunk with the
given window size, join with break markers, byte-encode with the window
size prefix. -/
def compress (M : AI.Model) (text : List Char)
    (window_size min_chunk max_chunk : Nat) : Except String (List Nat) :=
  Encoder.encode_tokens
    (combine_tokenized_chunks
      (tokenize_chunks M window_size (Splitter.split_text text min_chunk max_chunk)))
    window_size

/-- The core of `decompressor.decompress`: byte-decode, split at break
markers, detokenize each chunk, concatenate.  The decoder extracts
`encoded_window_size` from the stream but never passes it on: each chunk
goes through `detokenizer.detokenize(chunk, model)` →
`CeleryClient.detokenize(tokens)` → the `detokenize_tokens` task with its
default `window_size=64` → `llm_detokenize.decode_tokens(tokens, model, 64)`.
The literal 64 below is that default. -/
def decompress (M : AI.Model) (data : List Nat) : Except String (List Char) :=
  match Decoder.decode_bytes data with
  | .error e => .error e
  | .ok (tokens, _encoded_window_size) =>
    match (split_tokens_by_breaks tokens).mapM
        (fun chunk => AI.decode_tokens M chunk 64) with
    | .error e => .error e
    | .ok texts => .ok texts.flatten

end Pipeline

-- Equality of `Except` results is decidable; used to evaluate the codec on
-- concrete inputs inside proofs.
deriving instance DecidableEq for Except

/-- The value ranges the byte format can represent, as stated in the spec:
ranks below 64, literal ids below `2^27`, and break markers. -/
def Tok.valid : Tok → Prop
  | .rank r => r < 64
  | .explicit v => v < 2 ^ 27
  | .brk => True

instance : DecidablePred Tok.valid := fun t =>
  match t with
  | .rank r => Nat.decLt r 64
  | .explicit v => Nat.decLt v (2 ^ 27)
  | .brk => .isTrue trivial

/-- A concrete deterministic predictor: tokens are character codes (so
`detokenize` inverts `tokenize` on every text), and the top-64 candidate
list starts with 97 (`'a'`) while the context holds at most `thr` tokens
and with 98 (`'b'`) once it is longer, followed by 63 fillers.  It makes
the model's answers depend on the length of the context it is shown, which
is exactly what distinguishes a decoder that truncates the context to the
stream's window size from one that truncates to the default 64. -/
def model_thr (thr : Nat) : AI.Model :=
  AI.Model.mk
    (fun text => text.map (fun c => c.toNat))
    (fun tokens => tokens.map (fun n => Char.ofNat n))
    (fun context _k => (if context.length ≤ thr then 97 else 98) ::
       (List.range 63).map (fun i => 200 + i))

/-- A concrete deterministic predictor whose candidate list is always
`[200, 201, …, 263]` and whose tokenizer returns `[0, 240]` for every text:
token 240 sits at rank 40 of the top-64 list. -/
def model_c4 : AI.Model :=
  AI.Model.mk
    (fun _ => [0, 240])
    (fun tokens => tokens.map (fun n => Char.ofNat n))
    (fun _context _k => (List.range 64).map (fun i => 200 + i))

/-! Arithmetic bridge lemmas: the source manipulates bytes with `|||`,
`&&&`, `<<<`, `>>>`; these rewrite the bounded instances to `+`, `%`, `*`,
`/` so that `omega` can finish. -/

lemma lor_128_eq (x : Nat) (hx : x < 128) : 128 ||| x = 128 + x := by
  have h := (Nat.mul_add_lt_is_or (show x < 2 ^ 7 by omega) 1).symm
  norm_num at h
  exact h

lemma lor_192_eq (x : Nat) (hx : x < 64) : 192 ||| x = 192 + x := by
  have h := (Nat.mul_add_lt_is_or (show x < 2 ^ 6 by omega) 3).symm
  norm_num at h
  exact h

lemma and_63_eq (x : Nat) : x &&& 63 = x % 64 := by
  have h := Nat.and_pow_two_sub_one_eq_mod x 6
  norm_num at h
  exact h

lemma and_127_eq (x : Nat) : x &&& 127 = x % 128 := by
  have h := Nat.and_pow_two_sub_one_eq_mod x 7
  norm_num at h
  exact h

lemma double_byte_val (r1 r2 : Nat) (h1 : r1 ≤ 7) (h2 : r2 ≤ 7) :
    64 ||| (r1 <<< 3) ||| r2 = 64 + 8 * r1 + r2 := by
  rw [Nat.shiftLeft_eq]
  have e1 : (64 : Nat) ||| r1 * 2 ^ 3 = 64 + r1 * 2 ^ 3 := by
    have h := (Nat.mul_add_lt_is_or (show r1 * 2 ^ 3 < 2 ^ 6 by omega) 1).symm
    norm_num at h
    exact h
  have e2 := (Nat.mul_add_lt_is_or (show r2 < 2 ^ 3 by omega) (8 + r1)).symm
  have e3 : 2 ^ 3 * (8 + r1) = 64 + r1 * 2 ^ 3 := by ring
  rw [e3] at e2
  rw [e1, e2]
  ring

lemma zb_go_byte_bound : ∀ fuel count, count ≤ fuel →
    ∀ b ∈ Encoder.handle_continuous_zero_bytes_go fuel count, 192 ≤ b ∧ b ≤ 254 := by
  intro fuel
  induction fuel with
  | zero =>
    intro count hc b hb
    interval_cases count
    simp [Encoder.handle_continuous_zero_bytes_go] at hb
    omega
  | succ fuel ih =>
    intro count hc b hb
    by_cases h62 : count ≤ 62
    · simp [Encoder.handle_continuous_zero_bytes_go, h62] at hb
      rw [lor_192_eq count (by omega)] at hb
      omega
    · simp [Encoder.handle_continuous_zero_bytes_go, h62] at hb
      rcases hb with hb | hb
      · omega
      · exact ih (count - 62) (by omega) b hb

/-- C5 (counterexample): the literal 127 packs with stop byte
`0x80 | 127 = 0xFF`, so the stream for the single symbol `Literal(127)` —
which contains no `Break` — contains the byte 0xFF. -/
theorem ff_from_literal_stop_byte :
    Encoder.encode_tokens [Tok.explicit 127] 64 = .ok [128, 192, 128, 255] ∧
    (255 : Nat) ∈ [128, 192, 128, 255] ∧
    (∀ t ∈ [Tok.explicit 127], t.is_break = false) := by decide

/-- C5 (amended): no single-rank byte, double-rank byte, zero-run byte, or
literal start/middle byte is ever 0xFF, but the stop byte of a literal is
0xFF exactly when the literal value is 127 modulo 128. -/
theorem ff_byte_occurrences :
    (∀ t bs, Encoder.handle_rank_byte t = .ok bs → ∀ b ∈ bs, b ≠ 255) ∧
    (∀ t1 t2 bs, Encoder.handle_double_byte t1 t2 = .ok bs → ∀ b ∈ bs, b ≠ 255) ∧
    (∀ n, ∀ b ∈ Encoder.handle_continuous_zero_bytes n, b ≠ 255) ∧
    (∀ t bs, Encoder.encode_explicit_token t = .ok bs → ∀ b ∈ bs.dropLast, b ≠ 255) ∧
    (∀ t bs, Encoder.encode_explicit_token t = .ok bs →
      (bs.getLast? = some 255 ↔ t.val % 128 = 127)) := by
  refine ⟨?_, ?_, ?_, ?_, ?_⟩
  · intro t bs h b hb
    simp only [Encoder.handle_rank_byte] at h
    split at h
    · simp only [Except.ok.injEq] at h
      subst h
      simp at hb
      omega
    · simp at h
  · intro t1 t2 bs h b hb
    simp only [Encoder.handle_double_byte] at h
    split at h
    · simp only [Except.ok.injEq] at h
      subst h
      simp at hb
      rename_i hr
      rw [hb, double_byte_val t1.val t2.val hr.1 hr.2]
      omega
    · simp at h
  · intro n b hb
    have := zb_go_byte_bound n n (le_refl n) b hb
    omega
  · intro t bs h b hb
    simp only [Encoder.encode_explicit_token] at h
    split_ifs at h with h13 h20 h27 <;> simp only [Except.ok.injEq] at h <;> subst h <;>
      simp at hb
    · rw [hb, and_63_eq, lor_128_eq _ (by omega)]
      omega
    · rcases hb with hb | hb
      · rw [hb, and_63_eq, lor_128_eq _ (by omega)]
        omega
      · rw [hb, and_127_eq]
        omega
    · rcases hb with hb | hb | hb
      · rw [hb, and_63_eq, lor_128_eq _ (by omega)]
        omega
      · rw [hb, and_127_eq]
        omega
      · rw [hb, and_127_eq]
        omega
  · intro t bs h
    simp only [Encoder.encode_explicit_token] at h
    split_ifs at h with h13 h20 h27 <;> simp only [Except.ok.injEq] at h <;> subst h <;>
      simp [and_127_eq] <;> rw [lor_128_eq _ (by omega)] <;> omega

theorem ff_byte_occurrences_witness : (5 : Nat) ≠ 255 :=
  ff_byte_occurrences.1 (Tok.rank 5) [5] rfl 5 (by decide)

/-! Lemmas for the break-marker split/combine pair (C10). -/

lemma split_go_append_brk (c rest acc : List Tok)
    (hc : ∀ t ∈ c, t.is_break = false) :
    Pipeline.split_tokens_by_breaks_go (c ++ Tok.brk :: rest) acc
      = (acc.reverse ++ c) :: Pipeline.split_tokens_by_breaks_go rest [] := by
  induction c generalizing acc with
  | nil =>
    simp [Pipeline.split_tokens_by_breaks_go, Tok.is_break]
  | cons t c ih =>
    have ht : t.is_break = false := hc t (by simp)
    simp only [List.cons_append, Pipeline.split_tokens_by_breaks_go, ht,
      Bool.false_eq_true, if_false, List.append_eq]
    rw [ih (t :: acc) (fun x hx => hc x (by simp [hx]))]
    simp

lemma split_go_no_brk (c : List Tok) (acc : List Tok)
    (hc : ∀ t ∈ c, t.is_break = false) (hne : acc.reverse ++ c ≠ []) :
    Pipeline.split_tokens_by_breaks_go c acc = [acc.reverse ++ c] := by
  induction c generalizing acc with
  | nil =>
    have hacc : acc ≠ [] := by
      intro h
      apply hne
      simp [h]
    simp only [Pipeline.split_tokens_by_breaks_go]
    rw [if_neg hacc]
    simp
  | cons t c ih =>
    have ht : t.is_break = false := hc t (by simp)
    simp only [Pipeline.split_tokens_by_breaks_go, ht, Bool.false_eq_true, if_false]
    rw [ih (t :: acc) (fun x hx => hc x (by simp [hx])) (by simp)]
    simp

lemma combine_cons_cons (c0 c1 : List Tok) (rest : List (List Tok)) :
    Pipeline.combine_tokenized_chunks (c0 :: c1 :: rest)
      = c0 ++ Tok.brk :: Pipeline.combine_tokenized_chunks (c1 :: rest) := by
  simp [Pipeline.combine_tokenized_chunks]

/-- C10: for non-empty, break-free per-chunk token lists, splitting at break
markers inverts joining with break markers, and the combined list has
exactly one break marker fewer than the number of chunks. -/
theorem split_breaks_inverts_combine (cs : List (List Tok))
    (h1 : cs ≠ []) (h2 : ∀ c ∈ cs, c ≠ [])
    (h3 : ∀ c ∈ cs, ∀ t ∈ c, t.is_break = false) :
    Pipeline.split_tokens_by_breaks (Pipeline.combine_tokenized_chunks cs) = cs ∧
    (Pipeline.combine_tokenized_chunks cs).countP Tok.is_break = cs.length - 1 := by
  induction cs with
  | nil => exact absurd rfl h1
  | cons c0 rest ih =>
    cases rest with
    | nil =>
      have hco : Pipeline.combine_tokenized_chunks [c0] = c0 := by
        simp [Pipeline.combine_tokenized_chunks]
      constructor
      · rw [hco]
        unfold Pipeline.split_tokens_by_breaks
        rw [split_go_no_brk c0 [] (h3 c0 (by simp)) (by simpa using h2 c0 (by simp))]
        simp
      · rw [hco]
        simp only [List.length_cons, List.length_nil]
        rw [List.countP_eq_zero.mpr]
        intro t ht
        simp [h3 c0 (by simp) t ht]
    | cons c1 rest2 =>
      have ihr := ih (by simp)
        (fun c hc => h2 c (by simp [hc]))
        (fun c hc => h3 c (by simp [hc]))
      rw [combine_cons_cons]
      constructor
      · unfold Pipeline.split_tokens_by_breaks
        rw [split_go_append_brk c0 _ [] (h3 c0 (by simp))]
        have := ihr.1
        unfold Pipeline.split_tokens_by_breaks at this
        rw [this]
        simp
      · rw [List.countP_append, List.countP_cons]
        have hz : (c0.countP Tok.is_break) = 0 := by
          rw [List.countP_eq_zero.mpr]
          intro t ht
          simp [h3 c0 (by simp) t ht]
        have := ihr.2
        simp only [List.length_cons] at this ⊢
        simp [Tok.is_break] at this ⊢
        omega

theorem split_breaks_inverts_combine_witness :
    Pipeline.split_tokens_by_breaks
        (Pipeline.combine_tokenized_chunks [[Tok.explicit 1], [Tok.rank 0, Tok.rank 2]])
      = [[Tok.explicit 1], [Tok.rank 0, Tok.rank 2]] :=
  (split_breaks_inverts_combine [[Tok.explicit 1], [Tok.rank 0, Tok.rank 2]]
    (by decide) (by decide) (by decide)).1

/-- C8: a non-empty trailing chunk shorter than `min_chunk_size`, with at
least one earlier chunk, is merged into the previous chunk exactly when the
merged size is at most `1.5 × max_chunk_size` (as integers:
`2·size ≤ 3·max`); otherwise both chunks are kept. -/
theorem trailing_chunk_merge (min_chunk_size max_chunk_size : Nat)
    (chunks : List (List Char)) (current_chunk : List Char)
    (h1 : current_chunk ≠ []) (h2 : current_chunk.length < min_chunk_size)
    (h3 : chunks ≠ []) :
    (Splitter.handle_leftover min_chunk_size max_chunk_size chunks current_chunk
        = chunks.dropLast ++ [chunks.getLastD [] ++ current_chunk]
      ↔ 2 * (chunks.getLastD [] ++ current_chunk).length ≤ 3 * max_chunk_size) ∧
    (¬ 2 * (chunks.getLastD [] ++ current_chunk).length ≤ 3 * max_chunk_size →
      Splitter.handle_leftover min_chunk_size max_chunk_size chunks current_chunk
        = chunks.dropLast ++ [chunks.getLastD [], current_chunk]) := by
  simp only [Splitter.handle_leftover]
  rw [if_neg h1, if_pos (And.intro h2 h3)]
  by_cases hm : 2 * ((chunks.getLastD [] ++ current_chunk).length) ≤ 3 * max_chunk_size
  · rw [if_pos hm]
    exact ⟨⟨fun _ => hm, fun _ => rfl⟩, fun hn => absurd hm hn⟩
  · rw [if_neg hm]
    refine ⟨⟨fun heq => ?_, fun hyes => absurd hyes hm⟩, fun _ => rfl⟩
    exfalso
    have := congrArg List.length heq
    simp at this

theorem trailing_chunk_merge_witness :
    Splitter.handle_leftover 3 2 [['x']] ['y'] = [['x', 'y']] := by
  have h := (trailing_chunk_merge 3 2 [['x']] ['y'] (by decide) (by decide) (by decide)).1.mpr
    (by decide)
  simpa using h

/-- C6 (counterexample): a leading byte that is not a valid literal start
does not raise a `DecodingError` — `decode_bytes` silently falls back to
the default window size 64 and decodes from position 0 (byte `0x00` is a
rank byte, not a literal start). -/
theorem invalid_lead_byte_no_error :
    Decoder.decode_bytes [0] = .ok ([Tok.rank 0], 64) := by decide

/-- C6 (amended): the unpacker raises on empty input; a leading byte that
is not a valid literal start makes `extract_window_size` fall back to the
default `(64, 0)` with no error; a truncated multi-byte literal raises only
when a continuation byte is present (`[0x85, 0x05]`), while a bare start
byte (`[0x85]`) is decoded as a single-byte explicit value without error. -/
theorem unpacker_edge_cases :
    Decoder.decode_bytes [] = .error "Empty data provided for decoding" ∧
    (∀ data : List Nat, data.getD 0 0 &&& 192 ≠ 128 →
      Decoder.extract_window_size data = .ok (64, 0)) ∧
    Decoder.decode_bytes [0, 0] = .ok ([Tok.rank 0, Tok.rank 0], 64) ∧
    Decoder.decode_bytes [133, 5] = .error "Stop byte must have MSB set" ∧
    Decoder.decode_bytes [133] = .ok ([Tok.explicit 5], 64) := by
  refine ⟨by decide, ?_, by decide, by decide, by decide⟩
  intro data h
  unfold Decoder.extract_window_size
  by_cases h2 : 2 ≤ data.length
  · rw [if_pos h2, if_neg h]
  · rw [if_neg h2]

theorem unpacker_edge_cases_witness :
    Decoder.extract_window_size [0, 0] = .ok (64, 0) :=
  unpacker_edge_cases.2.1 [0, 0] (by decide)

/-- C4 (counterexample): with window size 16, the rank encoder emits
`Rank(40)`: the candidate list is requested with the default `k = 64`
(`find_token_rank` / `llm_tokenize.handle_rank_token` never pass `k`), so
ranks at or beyond `W` are produced whenever `W < 64`. -/
theorem rank_beyond_window_emitted :
    AI.encode_text model_c4 ['x'] 16 = .ok [Tok.explicit 0, Tok.rank 40] ∧
    ¬ (40 < 16) := by decide

/-- C4 (amended): every rank the encoder emits is the index of a member of
the model's candidate list, which is requested with the default `k = 64`;
when that list has at most 64 entries every emitted `Rank(r)` satisfies
`r < 64` — the bound is 64, not the window size `W`. -/
theorem encoder_rank_bound (M : AI.Model)
    (hk : ∀ ctx, (M.list_rank_tokens ctx 64).length ≤ 64)
    (window_size : Nat) (text : List Char) (toks : List Tok)
    (henc : AI.encode_text M text window_size = .ok toks) :
    ∀ r, Tok.rank r ∈ toks → r < 64 := by
  intro r hr
  unfold AI.encode_text at henc
  cases htok : M.tokenize text with
  | nil => rw [htok] at henc; exact absurd henc (by simp)
  | cons t0 tl =>
    rw [htok] at henc
    simp only [Except.ok.injEq] at henc
    subst henc
    rcases List.mem_cons.mp hr with h | h
    · exact absurd h.symm (by simp)
    · rcases List.mem_map.mp h with ⟨j, _, heq⟩
      unfold AI.handle_next_token_enc at heq
      cases hrank : AI.handle_rank_token_enc M window_size (j + 1) (t0 :: tl) with
      | none => rw [hrank] at heq; exact absurd heq (by simp)
      | some pos =>
        rw [hrank] at heq
        simp only [Tok.rank.injEq] at heq
        subst heq
        unfold AI.handle_rank_token_enc at hrank
        set ranks := M.list_rank_tokens
          (((t0 :: tl).take (j + 1)).drop (j + 1 - window_size)) 64 with hranks
        by_cases hmem : (t0 :: tl).getD (j + 1) 0 ∈ ranks
        · rw [if_pos hmem] at hrank
          simp only [Option.some.injEq] at hrank
          subst hrank
          calc List.indexOf ((t0 :: tl).getD (j + 1) 0) ranks < ranks.length :=
                List.indexOf_lt_length.mpr hmem
            _ ≤ 64 := hk _
        · rw [if_neg hmem] at hrank
          exact absurd hrank (by simp)

theorem encoder_rank_bound_witness : (40 : Nat) < 64 :=
  encoder_rank_bound model_c4 (fun ctx => by simp [model_c4]) 16 ['x']
    [Tok.explicit 0, Tok.rank 40] (by decide) 40 (by decide)

/-- C9 (counterexample): a `Rank(40)` appearing as the first symbol of a
chunk, with window size 16 (so `40 ∉ [0, 16)`), decodes without any error:
the decoder queries the model on the empty context and returns the rank-40
candidate. -/
theorem rank_at_chunk_start_no_error :
    AI.decode_tokens model_c4 [Tok.rank 40] 16 = .ok [Char.ofNat 240] ∧
    ¬ (40 < 16) := by decide

/-- C9 (amended): the rank decoder checks neither chunk starts nor the
window bound: whenever the model's candidate list (requested with the
default `k = 64`) has at least 64 entries and every rank in the symbol list
is below 64, decoding succeeds — a `Rank` first symbol is simply looked up
against the empty context and a rank in `[W, 64)` is looked up normally.
An `IndexError` occurs only for a rank at or beyond the candidate-list
length. -/
theorem decoder_no_rank_checks (M : AI.Model)
    (hk : ∀ ctx, 64 ≤ (M.list_rank_tokens ctx 64).length)
    (window_size : Nat) (toks : List Tok)
    (hr : ∀ r, Tok.rank r ∈ toks → r < 64) :
    ∃ out, AI.decode_tokens M toks window_size = .ok out := by
  have main : ∀ ts : List Tok, (∀ r, Tok.rank r ∈ ts → r < 64) → ∀ acc,
      ∃ res, AI.decode_tokens_go M window_size ts acc = .ok res := by
    intro ts
    induction ts with
    | nil => exact fun _ acc => ⟨acc, rfl⟩
    | cons t ts ih =>
      intro hts acc
      cases t with
      | rank r =>
        have hlt : r < 64 := hts r (by simp)
        have hget : ∃ v, AI.handle_next_token_dec M (Tok.rank r) acc window_size = .ok v := by
          have hlen := hk (acc.drop (acc.length - window_size))
          simp only [AI.handle_next_token_dec, AI.handle_rank_token_dec]
          rw [dif_pos (show r < (M.list_rank_tokens (acc.drop (acc.length - window_size)) 64).length
            by omega)]
          exact ⟨_, rfl⟩
        rcases hget with ⟨v, hv⟩
        rcases ih (fun x hx => hts x (by simp [hx])) (acc ++ [v]) with ⟨res, hres⟩
        exact ⟨res, by simp [AI.decode_tokens_go, hv, hres]⟩
      | explicit v =>
        rcases ih (fun x hx => hts x (by simp [hx])) (acc ++ [v]) with ⟨res, hres⟩
        exact ⟨res, by simp [AI.decode_tokens_go, AI.handle_next_token_dec, hres]⟩
      | brk =>
        rcases ih (fun x hx => hts x (by simp [hx])) (acc ++ [0]) with ⟨res, hres⟩
        exact ⟨res, by simp [AI.decode_tokens_go, AI.handle_next_token_dec, hres]⟩
  rcases main toks hr [] with ⟨res, hres⟩
  exact ⟨M.detokenize res, by simp [AI.decode_tokens, hres]⟩

theorem decoder_no_rank_checks_witness :
    ∃ out, AI.decode_tokens model_c4 [Tok.rank 40, Tok.explicit 7] 16 = .ok out :=
  decoder_no_rank_checks model_c4 (fun ctx => by simp [model_c4]) 16
    [Tok.rank 40, Tok.explicit 7]
    (by
      intro r h
      simp at h
      omega)

/-- C2: the window size is recovered from the stream (second conjunct: the
decoder reads `W = 32` from the leading literal), but rank decoding does
not use it.  Compressing 34 letters `a` with `W = 32` under the concrete
predictor and decompressing yields 33 `a`s and one `b` (third conjunct) —
the output of rank decoding with the hard-wired default window 64 — while
rank decoding the same symbols with the recovered `W = 32` would
reconstruct the original 34 `a`s (fourth conjunct). -/
theorem window_size_recovered_but_unused :
    (Pipeline.compress (model_thr 32) (List.replicate 34 'a') 32 100 500
      = .ok [128, 160, 128, 225, 225]) ∧
    (Decoder.decode_bytes [128, 160, 128, 225, 225]
      = .ok (Tok.explicit 97 :: List.replicate 33 (Tok.rank 0), 32)) ∧
    (Pipeline.decompress (model_thr 32) [128, 160, 128, 225, 225]
      = .ok (List.replicate 33 'a' ++ ['b'])) ∧
    (AI.decode_tokens (model_thr 32) (Tok.explicit 97 :: List.replicate 33 (Tok.rank 0)) 32
      = .ok (List.replicate 34 'a')) ∧
    (List.replicate 33 'a' ++ ['b'] ≠ List.replicate 34 'a') := by
  refine ⟨by decide, by decide, by decide, by decide, by decide⟩

/-- C1: the round trip fails for `W = 16` although the predictor is a pure
function whose `detokenize` inverts `tokenize` on every text (first
conjunct) and the chunk bounds satisfy `100 ≤ 500`: compressing 18 letters
`a` with window size 16 and decompressing returns 17 `a`s and one `b`,
because decompression rank-decodes with the default window 64 instead of
the stream's 16. -/
theorem roundtrip_fails_for_small_window :
    (∀ s, (model_thr 16).detokenize ((model_thr 16).tokenize s) = s) ∧
    ((Pipeline.compress (model_thr 16) (List.replicate 18 'a') 16 100 500).bind
        (Pipeline.decompress (model_thr 16)) = .ok (List.replicate 17 'a' ++ ['b'])) ∧
    (List.replicate 17 'a' ++ ['b'] ≠ List.replicate 18 'a') := by
  refine ⟨?_, by decide, by decide⟩
  intro s
  show (s.map (fun c => c.toNat)).map (fun n => Char.ofNat n) = s
  simp [List.map_map, Function.comp_def, Char.ofNat_toNat]

/-! Concatenation lemmas for the chunker (C7): every phase of `split_text`
preserves the concatenation of the pieces. -/

lemma re_split_go_flatten (m : Option Char → List Char → Option Nat) :
    ∀ fuel prev acc s, (Splitter.re_split_go m fuel prev acc s).flatten = acc.reverse ++ s := by
  intro fuel
  induction fuel with
  | zero =>
    intro prev acc s
    cases s <;> simp [Splitter.re_split_go]
  | succ fuel ih =>
    intro prev acc s
    cases s with
    | nil => simp [Splitter.re_split_go]
    | cons c rest =>
      simp only [Splitter.re_split_go]
      cases m prev (c :: rest) with
      | some n =>
        simp only [List.flatten_cons]
        rw [ih]
        simp [List.take_append_drop]
      | none =>
        rw [ih]
        simp

lemma pair_up_flatten : ∀ parts : List (List Char),
    ((Splitter.pair_up parts).map (fun p => p.1 ++ p.2)).flatten = parts.flatten
  | [] => by simp [Splitter.pair_up]
  | [x] => by simp [Splitter.pair_up]
  | x :: d :: rest => by
    simp only [Splitter.pair_up, List.map_cons, List.flatten_cons]
    rw [pair_up_flatten rest]
    simp

lemma accumulate_fold_flatten (min_chunk_size max_chunk_size : Nat) :
    ∀ (pairs : List (List Char × List Char)) (st : List (List Char) × List Char),
      ((pairs.foldl (Splitter.accumulate_step min_chunk_size max_chunk_size) st).1).flatten ++
        (pairs.foldl (Splitter.accumulate_step min_chunk_size max_chunk_size) st).2
      = st.1.flatten ++ st.2 ++ (pairs.map (fun p => p.1 ++ p.2)).flatten := by
  intro pairs
  induction pairs with
  | nil => intro st; simp
  | cons p ps ih =>
    intro st
    have hstep : (Splitter.accumulate_step min_chunk_size max_chunk_size st p).1.flatten ++
        (Splitter.accumulate_step min_chunk_size max_chunk_size st p).2
        = st.1.flatten ++ st.2 ++ (p.1 ++ p.2) := by
      simp only [Splitter.accumulate_step]
      split_ifs <;> simp
    rw [List.foldl_cons, ih (Splitter.accumulate_step min_chunk_size max_chunk_size st p), hstep]
    simp

lemma resplit_fold_flatten (min_chunk_size max_chunk_size : Nat) :
    ∀ (pairs : List (List Char × List Char)) (st : List (List Char) × List Char),
      ((pairs.foldl (Splitter.resplit_step min_chunk_size max_chunk_size) st).1).flatten ++
        (pairs.foldl (Splitter.resplit_step min_chunk_size max_chunk_size) st).2
      = st.1.flatten ++ st.2 ++ (pairs.map (fun p => p.1 ++ p.2)).flatten := by
  intro pairs
  induction pairs with
  | nil => intro st; simp
  | cons p ps ih =>
    intro st
    have hstep : (Splitter.resplit_step min_chunk_size max_chunk_size st p).1.flatten ++
        (Splitter.resplit_step min_chunk_size max_chunk_size st p).2
        = st.1.flatten ++ st.2 ++ (p.1 ++ p.2) := by
      simp only [Splitter.resplit_step]
      split_ifs <;> simp
    rw [List.foldl_cons, ih (Splitter.resplit_step min_chunk_size max_chunk_size st p), hstep]
    simp

lemma getLastD_dropLast_eq (l : List (List Char)) (h : l ≠ []) :
    l.dropLast ++ [l.getLastD []] = l := by
  rw [List.getLastD_eq_getLast?, List.getLast?_eq_getLast l h]
  exact List.dropLast_append_getLast h

lemma handle_leftover_flatten (min_chunk_size max_chunk_size : Nat)
    (chunks : List (List Char)) (current_chunk : List Char) :
    (Splitter.handle_leftover min_chunk_size max_chunk_size chunks current_chunk).flatten
      = chunks.flatten ++ current_chunk := by
  simp only [Splitter.handle_leftover]
  split_ifs with h1 h2 h3
  · simp [h1]
  · have hc := getLastD_dropLast_eq chunks h2.2
    conv_rhs => rw [← hc]
    simp
  · have hc := getLastD_dropLast_eq chunks h2.2
    conv_rhs => rw [← hc]
    simp
  · simp

lemma resplit_large_flatten (min_chunk_size max_chunk_size : Nat) (c : List Char) :
    (Splitter.resplit_large_chunk min_chunk_size max_chunk_size c).flatten = c := by
  simp only [Splitter.resplit_large_chunk]
  have hfold := resplit_fold_flatten min_chunk_size max_chunk_size
    (Splitter.pair_up (Splitter.re_split Splitter.match_secondary c)) ([], [])
  have hparts : (Splitter.re_split Splitter.match_secondary c).flatten = c := by
    unfold Splitter.re_split
    rw [re_split_go_flatten]
    simp
  rw [pair_up_flatten, hparts] at hfold
  simp only [List.flatten_nil, List.nil_append] at hfold
  split_ifs with h
  · simpa using hfold
  · simp only [ne_eq, Decidable.not_not] at h
    rw [h, List.append_nil] at hfold
    exact hfold

lemma resplit_oversized_flatten (min_chunk_size max_chunk_size : Nat)
    (chunks : List (List Char)) :
    (Splitter.resplit_oversized min_chunk_size max_chunk_size chunks).flatten
      = chunks.flatten := by
  unfold Splitter.resplit_oversized
  induction chunks with
  | nil => simp
  | cons c cs ih =>
    simp only [List.flatMap_cons, List.flatten_append]
    rw [ih]
    by_cases hc : 3 * max_chunk_size < 2 * c.length
    · simp [hc, resplit_large_flatten]
    · simp [hc]

/-- C7: concatenating the chunker's output reproduces the input text
exactly, for every text and every pair of chunk bounds. -/
theorem chunker_concat_eq_input (text : List Char) (min_chunk_size max_chunk_size : Nat)
    (_h : min_chunk_size ≤ max_chunk_size) :
    (Splitter.split_text text min_chunk_size max_chunk_size).flatten = text := by
  have hseg : (Splitter.re_split (fun _ s => Splitter.match_primary s) text).flatten = text := by
    unfold Splitter.re_split
    rw [re_split_go_flatten]
    simp
  have hacc := accumulate_fold_flatten min_chunk_size max_chunk_size
    (Splitter.pair_up (Splitter.re_split (fun _ s => Splitter.match_primary s) text)) ([], [])
  rw [pair_up_flatten, hseg] at hacc
  simp only [List.flatten_nil, List.nil_append] at hacc
  have h3 : (Splitter.resplit_oversized min_chunk_size max_chunk_size
      (Splitter.handle_leftover min_chunk_size max_chunk_size
        (Splitter.accumulate_pairs min_chunk_size max_chunk_size
          (Splitter.pair_up (Splitter.re_split (fun _ s => Splitter.match_primary s) text))).1
        (Splitter.accumulate_pairs min_chunk_size max_chunk_size
          (Splitter.pair_up (Splitter.re_split (fun _ s => Splitter.match_primary s) text))).2)).flatten
      = text := by
    rw [resplit_oversized_flatten, handle_leftover_flatten]
    unfold Splitter.accumulate_pairs
    exact hacc
  simp only [Splitter.split_text]
  rw [if_neg (show ¬ _ by rw [h3]; exact fun hne => hne rfl)]
  exact h3

theorem chunker_concat_eq_input_witness :
    (Splitter.split_text ['a', 'b'] 1 2).flatten = ['a', 'b'] :=
  chunker_concat_eq_input ['a', 'b'] 1 2 (by decide)

/-! Lemmas for the byte-format round trip (C3). -/

lemma and_two_pow_bit (b i : Nat) : b &&& 2 ^ i = b / 2 ^ i % 2 * 2 ^ i := by
  have h := Nat.and_two_pow b i
  rw [Nat.testBit_to_div_mod] at h
  by_cases h2 : b / 2 ^ i % 2 = 1
  · simp [h2] at h
    rw [h, h2]
    ring
  · have h3 : b / 2 ^ i % 2 = 0 := by omega
    simp [h2] at h
    rw [h, h3]
    ring

lemma and_128_eq (b : Nat) : b &&& 128 = b / 128 % 2 * 128 := by
  have h := and_two_pow_bit b 7
  norm_num at h
  exact h

lemma and_64_eq (b : Nat) : b &&& 64 = b / 64 % 2 * 64 := by
  have h := and_two_pow_bit b 6
  norm_num at h
  exact h

lemma and_192_eq (b : Nat) : b &&& 192 = b / 128 % 2 * 128 + b / 64 % 2 * 64 := by
  have h192 : (192 : Nat) = 128 ||| 64 := by decide
  rw [h192, Nat.and_or_distrib_left, and_128_eq, and_64_eq]
  have e := (Nat.mul_add_lt_is_or (show b / 64 % 2 * 64 < 2 ^ 7 by omega) (b / 128 % 2)).symm
  have e3 : 2 ^ 7 * (b / 128 % 2) = b / 128 % 2 * 128 := by ring
  rw [e3] at e
  exact e

lemma getD_append_right_add (l1 l2 : List Nat) (k : Nat) :
    (l1 ++ l2).getD (l1.length + k) 0 = l2.getD k 0 := by
  induction l1 with
  | nil => simp
  | cons a l ih =>
    have h : l.length + 1 + k = (l.length + k) + 1 := by omega
    simp only [List.cons_append, List.length_cons, h, List.getD_cons_succ]
    exact ih

lemma getD_at_head (pre : List Nat) (b : Nat) (rest : List Nat) :
    (pre ++ b :: rest).getD pre.length 0 = b := by
  have h := getD_append_right_add pre (b :: rest) 0
  simpa using h

lemma decode_loop_mono : ∀ fuel data idx toks,
    Decoder.decode_loop fuel data idx = .ok toks →
    Decoder.decode_loop (fuel + 1) data idx = .ok toks := by
  intro fuel
  induction fuel with
  | zero =>
    intro data idx toks h
    simp only [Decoder.decode_loop] at h ⊢
    by_cases hl : data.length ≤ idx
    · rw [if_pos hl] at h ⊢
      exact h
    · rw [if_neg hl] at h
      exact absurd h (by simp)
  | succ fuel ih =>
    intro data idx toks h
    rw [Decoder.decode_loop.eq_2] at h
    rw [Decoder.decode_loop.eq_2]
    by_cases hl : data.length ≤ idx
    · rw [if_pos hl] at h ⊢
      exact h
    · rw [if_neg hl] at h ⊢
      cases hnb : Decoder.handle_next_bytes data idx with
      | error e => rw [hnb] at h; exact absurd h (by simp)
      | ok p =>
        obtain ⟨new_tokens, new_idx⟩ := p
        rw [hnb] at h
        dsimp only at h ⊢
        cases hrec : Decoder.decode_loop fuel data (if new_idx = idx then idx + 1 else new_idx) with
        | error e => rw [hrec] at h; exact absurd h (by simp)
        | ok rest =>
          rw [hrec] at h
          rw [ih _ _ _ hrec]
          exact h

lemma decode_loop_mono_le (f1 f2 : Nat) (data : List Nat) (idx : Nat) (toks : List Tok)
    (hle : f1 ≤ f2) (h : Decoder.decode_loop f1 data idx = .ok toks) :
    Decoder.decode_loop f2 data idx = .ok toks := by
  obtain ⟨k, rfl⟩ := Nat.exists_eq_add_of_le hle
  clear hle
  induction k with
  | zero => exact h
  | succ k ih =>
    have : f1 + (k + 1) = (f1 + k) + 1 := by omega
    rw [this]
    exact decode_loop_mono _ _ _ _ ih

lemma decode_loop_step (data : List Nat) (idx fd : Nat) (new_tokens : List Tok)
    (new_idx : Nat) (cont : List Tok)
    (hlt : idx < data.length)
    (hnb : Decoder.handle_next_bytes data idx = .ok (new_tokens, new_idx))
    (hne : new_idx ≠ idx)
    (hrec : Decoder.decode_loop fd data new_idx = .ok cont) :
    Decoder.decode_loop (fd + 1) data idx = .ok (new_tokens ++ cont) := by
  rw [Decoder.decode_loop.eq_2, if_neg (Nat.not_le.mpr hlt), hnb]
  show (match Decoder.decode_loop fd data (if new_idx = idx then idx + 1 else new_idx) with
    | Except.error e => Except.error e
    | Except.ok rest => Except.ok (new_tokens ++ rest)) = Except.ok (new_tokens ++ cont)
  rw [if_neg hne, hrec]

lemma hnb_break (pre rest : List Nat) :
    Decoder.handle_next_bytes (pre ++ 255 :: rest) pre.length
      = .ok ([Tok.brk], pre.length + 1) := by
  simp only [Decoder.handle_next_bytes, getD_at_head]
  rw [if_neg (show ¬ (pre ++ 255 :: rest).length ≤ pre.length by simp)]
  rfl

lemma hnb_rank (pre rest : List Nat) (r : Nat) (hr : r < 64) :
    Decoder.handle_next_bytes (pre ++ r :: rest) pre.length
      = .ok ([Tok.rank r], pre.length + 1) := by
  simp only [Decoder.handle_next_bytes, getD_at_head]
  rw [if_neg (show ¬ (pre ++ r :: rest).length ≤ pre.length by simp)]
  rw [if_neg (show ¬ r = 255 by omega)]
  rw [if_pos (show r &&& 192 = 0 by rw [and_192_eq]; omega)]
  simp only [Decoder.handle_rank_byte, and_63_eq]
  rw [Nat.mod_eq_of_lt hr]

lemma hnb_double (pre rest : List Nat) (r1 r2 : Nat) (h1 : r1 < 8) (h2 : r2 < 8) :
    Decoder.handle_next_bytes (pre ++ (64 + 8 * r1 + r2) :: rest) pre.length
      = .ok ([Tok.rank r1, Tok.rank r2], pre.length + 1) := by
  have hfields : ((64 + 8 * r1 + r2) &&& 56) >>> 3 = r1 ∧ (64 + 8 * r1 + r2) &&& 7 = r2 := by
    interval_cases r1 <;> interval_cases r2 <;> decide
  simp only [Decoder.handle_next_bytes, getD_at_head]
  rw [if_neg (show ¬ (pre ++ (64 + 8 * r1 + r2) :: rest).length ≤ pre.length by simp)]
  rw [if_neg (show ¬ 64 + 8 * r1 + r2 = 255 by omega)]
  rw [if_neg (show ¬ (64 + 8 * r1 + r2) &&& 192 = 0 by rw [and_192_eq]; omega)]
  rw [if_pos (show (64 + 8 * r1 + r2) &&& 192 = 64 by rw [and_192_eq]; omega)]
  simp only [Decoder.handle_double_byte, hfields.1, hfields.2]

lemma hnb_zero_byte (pre rest : List Nat) (n : Nat) (hn : n ≤ 62) :
    Decoder.handle_next_bytes (pre ++ (192 + n) :: rest) pre.length
      = .ok (List.replicate n (Tok.rank 0), pre.length + 1) := by
  simp only [Decoder.handle_next_bytes, getD_at_head]
  rw [if_neg (show ¬ (pre ++ (192 + n) :: rest).length ≤ pre.length by simp)]
  rw [if_neg (show ¬ 192 + n = 255 by omega)]
  rw [if_neg (show ¬ (192 + n) &&& 192 = 0 by rw [and_192_eq]; omega)]
  rw [if_neg (show ¬ (192 + n) &&& 192 = 64 by rw [and_192_eq]; omega)]
  rw [if_neg (show ¬ (192 + n) &&& 192 = 128 by rw [and_192_eq]; omega)]
  rw [if_pos (show (192 + n) &&& 192 = 192 by rw [and_192_eq]; omega)]
  simp only [Decoder.handle_continuous_zero_byte, and_63_eq]
  rw [show (192 + n) % 64 = n by omega]

lemma eet_2 (v : Nat) (hv : v < 8192) :
    Encoder.encode_explicit_token (Tok.explicit v) = .ok [128 + v / 128, 128 + v % 128] := by
  have h1 : v >>> 7 &&& 63 = v / 128 := by
    rw [Nat.shiftRight_eq_div_pow, and_63_eq]
    norm_num
    omega
  have h2 : v &&& 127 = v % 128 := and_127_eq v
  simp only [Encoder.encode_explicit_token, Tok.val,
    show (1 <<< 13 : Nat) = 8192 from rfl]
  rw [if_pos hv, h1, h2, lor_128_eq _ (by omega), lor_128_eq _ (by omega)]

lemma eet_3 (v : Nat) (hlo : 8192 ≤ v) (hv : v < 1048576) :
    Encoder.encode_explicit_token (Tok.explicit v)
      = .ok [128 + v / 16384, v / 128 % 128, 128 + v % 128] := by
  have h1 : v >>> 14 &&& 63 = v / 16384 := by
    rw [Nat.shiftRight_eq_div_pow, and_63_eq]
    norm_num
    omega
  have h2 : v >>> 7 &&& 127 = v / 128 % 128 := by
    rw [Nat.shiftRight_eq_div_pow, and_127_eq]
  have h3 : v &&& 127 = v % 128 := and_127_eq v
  simp only [Encoder.encode_explicit_token, Tok.val,
    show (1 <<< 13 : Nat) = 8192 from rfl, show (1 <<< 20 : Nat) = 1048576 from rfl]
  rw [if_neg (by omega), if_pos hv, h1, h2, h3, lor_128_eq _ (by omega),
    lor_128_eq _ (by omega)]

lemma eet_4 (v : Nat) (hlo : 1048576 ≤ v) (hv : v < 134217728) :
    Encoder.encode_explicit_token (Tok.explicit v)
      = .ok [128 + v / 2097152, v / 16384 % 128, v / 128 % 128, 128 + v % 128] := by
  have h1 : v >>> 21 &&& 63 = v / 2097152 := by
    rw [Nat.shiftRight_eq_div_pow, and_63_eq]
    norm_num
    omega
  have h2 : v >>> 14 &&& 127 = v / 16384 % 128 := by
    rw [Nat.shiftRight_eq_div_pow, and_127_eq]
  have h3 : v >>> 7 &&& 127 = v / 128 % 128 := by
    rw [Nat.shiftRight_eq_div_pow, and_127_eq]
  have h4 : v &&& 127 = v % 128 := and_127_eq v
  simp only [Encoder.encode_explicit_token, Tok.val,
    show (1 <<< 13 : Nat) = 8192 from rfl, show (1 <<< 20 : Nat) = 1048576 from rfl,
    show (1 <<< 27 : Nat) = 134217728 from rfl]
  rw [if_neg (by omega), if_neg (by omega), if_pos hv, h1, h2, h3, h4,
    lor_128_eq _ (by omega), lor_128_eq _ (by omega)]

lemma heb_2 (v : Nat) (hv : v < 8192) :
    Decoder.handle_explicit_bytes [128 + v / 128, 128 + v % 128] = .ok (Tok.explicit v) := by
  have hval : ((128 + v / 128) &&& 63) <<< 7 ||| ((128 + v % 128) &&& 127) = v := by
    have e1 : (128 + v / 128) &&& 63 = v / 128 := by rw [and_63_eq]; omega
    have e2 : (128 + v % 128) &&& 127 = v % 128 := by rw [and_127_eq]; omega
    rw [e1, e2, Nat.shiftLeft_eq, Nat.mul_comm]
    rw [(Nat.mul_add_lt_is_or (show v % 128 < 2 ^ 7 by omega) (v / 128)).symm]
    omega
  simp only [Decoder.handle_explicit_bytes]
  rw [if_neg (show ¬ (128 + v / 128) &&& 128 = 0 by rw [and_128_eq]; omega)]
  rw [if_neg (show ¬ (128 + v % 128) &&& 128 = 0 by rw [and_128_eq]; omega)]
  rw [hval]

lemma heb_3 (v : Nat) (hv : v < 1048576) :
    Decoder.handle_explicit_bytes [128 + v / 16384, v / 128 % 128, 128 + v % 128]
      = .ok (Tok.explicit v) := by
  have hval : ((128 + v / 16384) &&& 63) <<< 14 ||| ((v / 128 % 128) &&& 127) <<< 7 |||
      ((128 + v % 128) &&& 127) = v := by
    have e1 : (128 + v / 16384) &&& 63 = v / 16384 := by rw [and_63_eq]; omega
    have e2 : (v / 128 % 128) &&& 127 = v / 128 % 128 := by rw [and_127_eq]; omega
    have e3 : (128 + v % 128) &&& 127 = v % 128 := by rw [and_127_eq]; omega
    rw [e1, e2, e3, Nat.shiftLeft_eq, Nat.shiftLeft_eq, Nat.mul_comm (v / 16384),
      Nat.mul_comm (v / 128 % 128)]
    rw [(Nat.mul_add_lt_is_or
      (show 2 ^ 7 * (v / 128 % 128) < 2 ^ 14 by omega) (v / 16384)).symm]
    have hsplit : 2 ^ 14 * (v / 16384) + 2 ^ 7 * (v / 128 % 128)
        = 2 ^ 7 * (2 ^ 7 * (v / 16384) + v / 128 % 128) := by ring
    rw [hsplit,
      (Nat.mul_add_lt_is_or (show v % 128 < 2 ^ 7 by omega)
        (2 ^ 7 * (v / 16384) + v / 128 % 128)).symm]
    omega
  simp only [Decoder.handle_explicit_bytes]
  rw [if_neg (show ¬ (128 + v / 16384) &&& 128 = 0 by rw [and_128_eq]; omega)]
  rw [if_neg (show ¬ (v / 128 % 128) &&& 128 ≠ 0 by rw [and_128_eq]; omega)]
  rw [if_neg (show ¬ (128 + v % 128) &&& 128 = 0 by rw [and_128_eq]; omega)]
  rw [hval]

lemma heb_4 (v : Nat) (hv : v < 134217728) :
    Decoder.handle_explicit_bytes
        [128 + v / 2097152, v / 16384 % 128, v / 128 % 128, 128 + v % 128]
      = .ok (Tok.explicit v) := by
  have hval : ((128 + v / 2097152) &&& 63) <<< 21 ||| ((v / 16384 % 128) &&& 127) <<< 14 |||
      ((v / 128 % 128) &&& 127) <<< 7 ||| ((128 + v % 128) &&& 127) = v := by
    have e1 : (128 + v / 2097152) &&& 63 = v / 2097152 := by rw [and_63_eq]; omega
    have e2 : (v / 16384 % 128) &&& 127 = v / 16384 % 128 := by rw [and_127_eq]; omega
    have e3 : (v / 128 % 128) &&& 127 = v / 128 % 128 := by rw [and_127_eq]; omega
    have e4 : (128 + v % 128) &&& 127 = v % 128 := by rw [and_127_eq]; omega
    rw [e1, e2, e3, e4, Nat.shiftLeft_eq, Nat.shiftLeft_eq, Nat.shiftLeft_eq,
      Nat.mul_comm (v / 2097152), Nat.mul_comm (v / 16384 % 128),
      Nat.mul_comm (v / 128 % 128)]
    rw [(Nat.mul_add_lt_is_or
      (show 2 ^ 14 * (v / 16384 % 128) < 2 ^ 21 by omega) (v / 2097152)).symm]
    have hs1 : 2 ^ 21 * (v / 2097152) + 2 ^ 14 * (v / 16384 % 128)
        = 2 ^ 14 * (2 ^ 7 * (v / 2097152) + v / 16384 % 128) := by ring
    rw [hs1,
      (Nat.mul_add_lt_is_or (show 2 ^ 7 * (v / 128 % 128) < 2 ^ 14 by omega)
        (2 ^ 7 * (v / 2097152) + v / 16384 % 128)).symm]
    have hs2 : 2 ^ 14 * (2 ^ 7 * (v / 2097152) + v / 16384 % 128) + 2 ^ 7 * (v / 128 % 128)
        = 2 ^ 7 * (2 ^ 7 * (2 ^ 7 * (v / 2097152) + v / 16384 % 128) + v / 128 % 128) := by
      ring
    rw [hs2,
      (Nat.mul_add_lt_is_or (show v % 128 < 2 ^ 7 by omega)
        (2 ^ 7 * (2 ^ 7 * (v / 2097152) + v / 16384 % 128) + v / 128 % 128)).symm]
    omega
  simp only [Decoder.handle_explicit_bytes]
  rw [if_neg (show ¬ (128 + v / 2097152) &&& 128 = 0 by rw [and_128_eq]; omega)]
  rw [if_neg (show ¬ (v / 16384 % 128) &&& 128 ≠ 0 by rw [and_128_eq]; omega)]
  rw [if_neg (show ¬ (v / 128 % 128) &&& 128 ≠ 0 by rw [and_128_eq]; omega)]
  rw [if_neg (show ¬ (128 + v % 128) &&& 128 = 0 by rw [and_128_eq]; omega)]
  rw [hval]

lemma hnb_literal (pre tail : List Nat) (v : Nat) (bs : List Nat) (hv : v < 134217728)
    (henc : Encoder.encode_explicit_token (Tok.explicit v) = .ok bs) :
    Decoder.handle_next_bytes (pre ++ bs ++ tail) pre.length
      = .ok ([Tok.explicit v], pre.length + bs.length) := by
  by_cases h13 : v < 8192
  · rw [eet_2 v h13] at henc
    simp only [Except.ok.injEq] at henc
    subst henc
    have hdata : pre ++ [128 + v / 128, 128 + v % 128] ++ tail
        = pre ++ (128 + v / 128) :: (128 + v % 128) :: tail := by simp
    rw [hdata]
    have hg1 : (pre ++ (128 + v / 128) :: (128 + v % 128) :: tail).getD (pre.length + 1) 0
        = 128 + v % 128 := by
      have h := getD_append_right_add pre ((128 + v / 128) :: (128 + v % 128) :: tail) 1
      simpa using h
    have hlen2 : Decoder.explicit_bytes_length
        (pre ++ (128 + v / 128) :: (128 + v % 128) :: tail) pre.length = 2 := by
      simp only [Decoder.explicit_bytes_length, hg1]
      rw [if_neg (show ¬ (pre ++ (128 + v / 128) :: (128 + v % 128) :: tail).length
          ≤ pre.length + 1 by simp)]
      rw [if_pos (show (128 + v % 128) &&& 128 ≠ 0 by rw [and_128_eq]; omega)]
    have hslice : ((pre ++ (128 + v / 128) :: (128 + v % 128) :: tail).drop pre.length).take 2
        = [128 + v / 128, 128 + v % 128] := by
      rw [show pre ++ (128 + v / 128) :: (128 + v % 128) :: tail
          = pre ++ ((128 + v / 128) :: (128 + v % 128) :: tail) from rfl,
        List.drop_left pre]
      rfl
    simp only [Decoder.handle_next_bytes, getD_at_head]
    rw [if_neg (show ¬ (pre ++ (128 + v / 128) :: (128 + v % 128) :: tail).length
        ≤ pre.length by simp)]
    rw [if_neg (show ¬ 128 + v / 128 = 255 by omega)]
    rw [if_neg (show ¬ (128 + v / 128) &&& 192 = 0 by rw [and_192_eq]; omega)]
    rw [if_neg (show ¬ (128 + v / 128) &&& 192 = 64 by rw [and_192_eq]; omega)]
    rw [if_pos (show (128 + v / 128) &&& 192 = 128 by rw [and_192_eq]; omega)]
    rw [hlen2]
    rw [if_pos (show pre.length + 2
        ≤ (pre ++ (128 + v / 128) :: (128 + v % 128) :: tail).length by simp)]
    rw [hslice, heb_2 v h13]
    rfl
  · by_cases h20 : v < 1048576
    · rw [eet_3 v (by omega) h20] at henc
      simp only [Except.ok.injEq] at henc
      subst henc
      have hdata : pre ++ [128 + v / 16384, v / 128 % 128, 128 + v % 128] ++ tail
          = pre ++ (128 + v / 16384) :: (v / 128 % 128) :: (128 + v % 128) :: tail := by simp
      rw [hdata]
      have hg1 : (pre ++ (128 + v / 16384) :: (v / 128 % 128) :: (128 + v % 128) :: tail).getD
          (pre.length + 1) 0 = v / 128 % 128 := by
        have h := getD_append_right_add pre
          ((128 + v / 16384) :: (v / 128 % 128) :: (128 + v % 128) :: tail) 1
        simpa using h
      have hg2 : (pre ++ (128 + v / 16384) :: (v / 128 % 128) :: (128 + v % 128) :: tail).getD
          (pre.length + 2) 0 = 128 + v % 128 := by
        have h := getD_append_right_add pre
          ((128 + v / 16384) :: (v / 128 % 128) :: (128 + v % 128) :: tail) 2
        simpa using h
      have hlen3 : Decoder.explicit_bytes_length
          (pre ++ (128 + v / 16384) :: (v / 128 % 128) :: (128 + v % 128) :: tail)
          pre.length = 3 := by
        simp only [Decoder.explicit_bytes_length, hg1, hg2]
        rw [if_neg (show ¬ (pre ++ (128 + v / 16384) :: (v / 128 % 128) ::
            (128 + v % 128) :: tail).length ≤ pre.length + 1 by simp)]
        rw [if_neg (show ¬ (v / 128 % 128) &&& 128 ≠ 0 by rw [and_128_eq]; omega)]
        rw [if_pos (show pre.length + 2 < (pre ++ (128 + v / 16384) :: (v / 128 % 128) ::
            (128 + v % 128) :: tail).length by simp)]
        rw [if_pos (show (128 + v % 128) &&& 128 ≠ 0 by rw [and_128_eq]; omega)]
      have hslice : ((pre ++ (128 + v / 16384) :: (v / 128 % 128) ::
          (128 + v % 128) :: tail).drop pre.length).take 3
          = [128 + v / 16384, v / 128 % 128, 128 + v % 128] := by
        rw [show pre ++ (128 + v / 16384) :: (v / 128 % 128) :: (128 + v % 128) :: tail
            = pre ++ ((128 + v / 16384) :: (v / 128 % 128) :: (128 + v % 128) :: tail)
            from rfl, List.drop_left pre]
        rfl
      simp only [Decoder.handle_next_bytes, getD_at_head]
      rw [if_neg (show ¬ (pre ++ (128 + v / 16384) :: (v / 128 % 128) ::
          (128 + v % 128) :: tail).length ≤ pre.length by simp)]
      rw [if_neg (show ¬ 128 + v / 16384 = 255 by omega)]
      rw [if_neg (show ¬ (128 + v / 16384) &&& 192 = 0 by rw [and_192_eq]; omega)]
      rw [if_neg (show ¬ (128 + v / 16384) &&& 192 = 64 by rw [and_192_eq]; omega)]
      rw [if_pos (show (128 + v / 16384) &&& 192 = 128 by rw [and_192_eq]; omega)]
      rw [hlen3]
      rw [if_pos (show pre.length + 3 ≤ (pre ++ (128 + v / 16384) :: (v / 128 % 128) ::
          (128 + v % 128) :: tail).length by simp)]
      rw [hslice, heb_3 v h20]
      rfl
    · rw [eet_4 v (by omega) hv] at henc
      simp only [Except.ok.injEq] at henc
      subst henc
      have hdata : pre ++ [128 + v / 2097152, v / 16384 % 128, v / 128 % 128,
          128 + v % 128] ++ tail
          = pre ++ (128 + v / 2097152) :: (v / 16384 % 128) :: (v / 128 % 128) ::
            (128 + v % 128) :: tail := by simp
      rw [hdata]
      have hg1 : (pre ++ (128 + v / 2097152) :: (v / 16384 % 128) :: (v / 128 % 128) ::
          (128 + v % 128) :: tail).getD (pre.length + 1) 0 = v / 16384 % 128 := by
        have h := getD_append_right_add pre ((128 + v / 2097152) :: (v / 16384 % 128) ::
          (v / 128 % 128) :: (128 + v % 128) :: tail) 1
        simpa using h
      have hg2 : (pre ++ (128 + v / 2097152) :: (v / 16384 % 128) :: (v / 128 % 128) ::
          (128 + v % 128) :: tail).getD (pre.length + 2) 0 = v / 128 % 128 := by
        have h := getD_append_right_add pre ((128 + v / 2097152) :: (v / 16384 % 128) ::
          (v / 128 % 128) :: (128 + v % 128) :: tail) 2
        simpa using h
      have hg3 : (pre ++ (128 + v / 2097152) :: (v / 16384 % 128) :: (v / 128 % 128) ::
          (128 + v % 128) :: tail).getD (pre.length + 3) 0 = 128 + v % 128 := by
        have h := getD_append_right_add pre ((128 + v / 2097152) :: (v / 16384 % 128) ::
          (v / 128 % 128) :: (128 + v % 128) :: tail) 3
        simpa using h
      have hlen4 : Decoder.explicit_bytes_length
          (pre ++ (128 + v / 2097152) :: (v / 16384 % 128) :: (v / 128 % 128) ::
            (128 + v % 128) :: tail) pre.length = 4 := by
        simp only [Decoder.explicit_bytes_length, hg1, hg2, hg3]
        rw [if_neg (show ¬ (pre ++ (128 + v / 2097152) :: (v / 16384 % 128) ::
            (v / 128 % 128) :: (128 + v % 128) :: tail).length ≤ pre.length + 1 by simp)]
        rw [if_neg (show ¬ (v / 16384 % 128) &&& 128 ≠ 0 by rw [and_128_eq]; omega)]
        rw [if_pos (show pre.length + 2 < (pre ++ (128 + v / 2097152) ::
            (v / 16384 % 128) :: (v / 128 % 128) :: (128 + v % 128) :: tail).length by simp)]
        rw [if_neg (show ¬ (v / 128 % 128) &&& 128 ≠ 0 by rw [and_128_eq]; omega)]
        rw [if_pos (show pre.length + 3 < (pre ++ (128 + v / 2097152) ::
            (v / 16384 % 128) :: (v / 128 % 128) :: (128 + v % 128) :: tail).length
            ∧ (128 + v % 128) &&& 128 ≠ 0 by
          constructor
          · simp
          · rw [and_128_eq]; omega)]
      have hslice : ((pre ++ (128 + v / 2097152) :: (v / 16384 % 128) :: (v / 128 % 128) ::
          (128 + v % 128) :: tail).drop pre.length).take 4
          = [128 + v / 2097152, v / 16384 % 128, v / 128 % 128, 128 + v % 128] := by
        rw [show pre ++ (128 + v / 2097152) :: (v / 16384 % 128) :: (v / 128 % 128) ::
            (128 + v % 128) :: tail
            = pre ++ ((128 + v / 2097152) :: (v / 16384 % 128) :: (v / 128 % 128) ::
              (128 + v % 128) :: tail) from rfl, List.drop_left pre]
        rfl
      simp only [Decoder.handle_next_bytes, getD_at_head]
      rw [if_neg (show ¬ (pre ++ (128 + v / 2097152) :: (v / 16384 % 128) ::
          (v / 128 % 128) :: (128 + v % 128) :: tail).length ≤ pre.length by simp)]
      rw [if_neg (show ¬ 128 + v / 2097152 = 255 by omega)]
      rw [if_neg (show ¬ (128 + v / 2097152) &&& 192 = 0 by rw [and_192_eq]; omega)]
      rw [if_neg (show ¬ (128 + v / 2097152) &&& 192 = 64 by rw [and_192_eq]; omega)]
      rw [if_pos (show (128 + v / 2097152) &&& 192 = 128 by rw [and_192_eq]; omega)]
      rw [hlen4]
      rw [if_pos (show pre.length + 4 ≤ (pre ++ (128 + v / 2097152) :: (v / 16384 % 128) ::
          (v / 128 % 128) :: (128 + v % 128) :: tail).length by simp)]
      rw [hslice, heb_4 v hv]
      rfl

lemma extract_ok (W : Nat) (hW : W < 134217728) (wbs g : List Nat)
    (henc : Encoder.encode_explicit_token (Tok.explicit W) = .ok wbs) :
    Decoder.extract_window_size (wbs ++ g) = .ok (W, wbs.length) := by
  by_cases h13 : W < 8192
  · rw [eet_2 W h13] at henc
    simp only [Except.ok.injEq] at henc
    subst henc
    simp only [Decoder.extract_window_size, List.cons_append, List.nil_append]
    rw [if_pos (show 2 ≤ ((128 + W / 128) :: (128 + W % 128) :: g).length by simp)]
    rw [List.getD_cons_zero]
    rw [if_pos (show (128 + W / 128) &&& 192 = 128 by rw [and_192_eq]; omega)]
    have hlen : Decoder.explicit_bytes_length ((128 + W / 128) :: (128 + W % 128) :: g) 0
        = 2 := by
      simp only [Decoder.explicit_bytes_length]
      rw [if_neg (show ¬ ((128 + W / 128) :: (128 + W % 128) :: g).length ≤ 0 + 1 by simp)]
      simp only [Nat.zero_add, List.getD_cons_succ, List.getD_cons_zero]
      rw [if_pos (show (128 + W % 128) &&& 128 ≠ 0 by rw [and_128_eq]; omega)]
    rw [hlen]
    rw [if_pos (show 2 ≤ ((128 + W / 128) :: (128 + W % 128) :: g).length by simp)]
    rw [show ((128 + W / 128) :: (128 + W % 128) :: g).take 2
        = [128 + W / 128, 128 + W % 128] from rfl]
    rw [heb_2 W h13]
    rfl
  · by_cases h20 : W < 1048576
    · rw [eet_3 W (by omega) h20] at henc
      simp only [Except.ok.injEq] at henc
      subst henc
      simp only [Decoder.extract_window_size, List.cons_append, List.nil_append]
      rw [if_pos (show 2 ≤ ((128 + W / 16384) :: (W / 128 % 128) ::
          (128 + W % 128) :: g).length by simp)]
      rw [List.getD_cons_zero]
      rw [if_pos (show (128 + W / 16384) &&& 192 = 128 by rw [and_192_eq]; omega)]
      have hlen : Decoder.explicit_bytes_length
          ((128 + W / 16384) :: (W / 128 % 128) :: (128 + W % 128) :: g) 0 = 3 := by
        simp only [Decoder.explicit_bytes_length]
        rw [if_neg (show ¬ ((128 + W / 16384) :: (W / 128 % 128) ::
            (128 + W % 128) :: g).length ≤ 0 + 1 by simp)]
        simp only [Nat.zero_add, List.getD_cons_succ, List.getD_cons_zero]
        rw [if_neg (show ¬ (W / 128 % 128) &&& 128 ≠ 0 by rw [and_128_eq]; omega)]
        rw [if_pos (show 0 + 2 < ((128 + W / 16384) :: (W / 128 % 128) ::
            (128 + W % 128) :: g).length by simp)]
        rw [if_pos (show (128 + W % 128) &&& 128 ≠ 0 by rw [and_128_eq]; omega)]
      rw [hlen]
      rw [if_pos (show 3 ≤ ((128 + W / 16384) :: (W / 128 % 128) ::
          (128 + W % 128) :: g).length by simp)]
      rw [show ((128 + W / 16384) :: (W / 128 % 128) :: (128 + W % 128) :: g).take 3
          = [128 + W / 16384, W / 128 % 128, 128 + W % 128] from rfl]
      rw [heb_3 W h20]
      rfl
    · rw [eet_4 W (by omega) hW] at henc
      simp only [Except.ok.injEq] at henc
      subst henc
      simp only [Decoder.extract_window_size, List.cons_append, List.nil_append]
      rw [if_pos (show 2 ≤ ((128 + W / 2097152) :: (W / 16384 % 128) :: (W / 128 % 128) ::
          (128 + W % 128) :: g).length by simp)]
      rw [List.getD_cons_zero]
      rw [if_pos (show (128 + W / 2097152) &&& 192 = 128 by rw [and_192_eq]; omega)]
      have hlen : Decoder.explicit_bytes_length ((128 + W / 2097152) :: (W / 16384 % 128) ::
          (W / 128 % 128) :: (128 + W % 128) :: g) 0 = 4 := by
        simp only [Decoder.explicit_bytes_length]
        rw [if_neg (show ¬ ((128 + W / 2097152) :: (W / 16384 % 128) :: (W / 128 % 128) ::
            (128 + W % 128) :: g).length ≤ 0 + 1 by simp)]
        simp only [Nat.zero_add, List.getD_cons_succ, List.getD_cons_zero]
        rw [if_neg (show ¬ (W / 16384 % 128) &&& 128 ≠ 0 by rw [and_128_eq]; omega)]
        rw [if_pos (show 0 + 2 < ((128 + W / 2097152) :: (W / 16384 % 128) ::
            (W / 128 % 128) :: (128 + W % 128) :: g).length by simp)]
        rw [if_neg (show ¬ (W / 128 % 128) &&& 128 ≠ 0 by rw [and_128_eq]; omega)]
        rw [if_pos (show 0 + 3 < ((128 + W / 2097152) :: (W / 16384 % 128) ::
            (W / 128 % 128) :: (128 + W % 128) :: g).length
            ∧ (128 + W % 128) &&& 128 ≠ 0 by
          constructor
          · simp
          · rw [and_128_eq]; omega)]
      rw [hlen]
      rw [if_pos (show 4 ≤ ((128 + W / 2097152) :: (W / 16384 % 128) :: (W / 128 % 128) ::
          (128 + W % 128) :: g).length by simp)]
      rw [show ((128 + W / 2097152) :: (W / 16384 % 128) :: (W / 128 % 128) ::
          (128 + W % 128) :: g).take 4
          = [128 + W / 2097152, W / 16384 % 128, W / 128 % 128, 128 + W % 128] from rfl]
      rw [heb_4 W hW]
      rfl

lemma clz_le_length : ∀ S : List Tok, Encoder.count_leading_zeros S ≤ S.length := by
  intro S
  induction S with
  | nil => simp [Encoder.count_leading_zeros]
  | cons t ts ih =>
    simp only [Encoder.count_leading_zeros, List.length_cons]
    split
    · omega
    · omega

lemma clz_take : ∀ S : List Tok, S.take (Encoder.count_leading_zeros S)
    = List.replicate (Encoder.count_leading_zeros S) (Tok.rank 0) := by
  intro S
  induction S with
  | nil => simp [Encoder.count_leading_zeros]
  | cons t ts ih =>
    simp only [Encoder.count_leading_zeros]
    by_cases h : t.is_rank && t.val == 0
    · have ht : t = Tok.rank 0 := by
        cases t with
        | rank v =>
          simp [Tok.is_rank, Tok.val] at h
          rw [h]
        | explicit v => simp [Tok.is_rank] at h
        | brk => simp [Tok.is_rank] at h
      rw [if_pos h, ht, Nat.add_comm 1 (Encoder.count_leading_zeros ts)]
      simp only [List.take_succ_cons, List.replicate_succ]
      rw [ih]
    · rw [if_neg h]
      simp

lemma decode_zeros : ∀ fuelz nz, nz ≤ fuelz →
    ∀ (pre rest : List Nat) (fd : Nat) (cont : List Tok),
    Decoder.decode_loop fd (pre ++ Encoder.handle_continuous_zero_bytes_go fuelz nz ++ rest)
      ((pre ++ Encoder.handle_continuous_zero_bytes_go fuelz nz).length) = .ok cont →
    Decoder.decode_loop (fd + (Encoder.handle_continuous_zero_bytes_go fuelz nz).length)
      (pre ++ Encoder.handle_continuous_zero_bytes_go fuelz nz ++ rest) pre.length
      = .ok (List.replicate nz (Tok.rank 0) ++ cont) := by
  intro fuelz
  induction fuelz with
  | zero =>
    intro nz hnz pre rest fd cont h
    interval_cases nz
    simp only [Encoder.handle_continuous_zero_bytes_go, Nat.or_zero] at h ⊢
    have hdata : pre ++ [192] ++ rest = pre ++ (192 + 0) :: rest := by simp
    rw [hdata] at h ⊢
    have hstep := decode_loop_step (pre ++ (192 + 0) :: rest) pre.length fd
      (List.replicate 0 (Tok.rank 0)) (pre.length + 1) cont
      (by simp)
      (hnb_zero_byte pre rest 0 (by omega))
      (by omega)
      (by
        have hidx : (pre ++ [192]).length = pre.length + 1 := by simp
        rw [hidx] at h
        exact h)
    simpa using hstep
  | succ fuelz ih =>
    intro nz hnz pre rest fd cont h
    by_cases h62 : nz ≤ 62
    · simp only [Encoder.handle_continuous_zero_bytes_go, if_pos h62] at h ⊢
      rw [lor_192_eq nz (by omega)] at h ⊢
      have hstep := decode_loop_step (pre ++ (192 + nz) :: rest) pre.length fd
        (List.replicate nz (Tok.rank 0)) (pre.length + 1) cont
        (by simp)
        (hnb_zero_byte pre rest nz h62)
        (by omega)
        (by
          have hidx : (pre ++ [192 + nz]).length = pre.length + 1 := by simp
          rw [hidx] at h
          have hdata : pre ++ [192 + nz] ++ rest = pre ++ (192 + nz) :: rest := by simp
          rw [hdata] at h
          exact h)
      have hdata : pre ++ [192 + nz] ++ rest = pre ++ (192 + nz) :: rest := by simp
      rw [hdata]
      simpa using hstep
    · simp only [Encoder.handle_continuous_zero_bytes_go, if_neg h62] at h ⊢
      rw [show (192 : Nat) ||| 62 = 254 by decide] at h ⊢
      have hdata : pre ++ 254 :: Encoder.handle_continuous_zero_bytes_go fuelz (nz - 62) ++ rest
          = (pre ++ [254]) ++ Encoder.handle_continuous_zero_bytes_go fuelz (nz - 62) ++ rest := by
        simp
      rw [hdata] at h ⊢
      have hlen : (pre ++ 254 :: Encoder.handle_continuous_zero_bytes_go fuelz (nz - 62)).length
          = ((pre ++ [254]) ++ Encoder.handle_continuous_zero_bytes_go fuelz (nz - 62)).length := by
        simp
      rw [hlen] at h
      have hih := ih (nz - 62) (by omega) (pre ++ [254]) rest fd cont h
      have hstep := decode_loop_step
        ((pre ++ [254]) ++ Encoder.handle_continuous_zero_bytes_go fuelz (nz - 62) ++ rest)
        pre.length
        (fd + (Encoder.handle_continuous_zero_bytes_go fuelz (nz - 62)).length)
        (List.replicate 62 (Tok.rank 0)) (pre.length + 1)
        (List.replicate (nz - 62) (Tok.rank 0) ++ cont)
        (by simp)
        (by
          have hform : (pre ++ [254]) ++ Encoder.handle_continuous_zero_bytes_go fuelz (nz - 62)
              ++ rest = pre ++ (192 + 62) ::
                (Encoder.handle_continuous_zero_bytes_go fuelz (nz - 62) ++ rest) := by
            simp
          rw [hform]
          exact hnb_zero_byte pre
            (Encoder.handle_continuous_zero_bytes_go fuelz (nz - 62) ++ rest) 62 (by omega))
        (by omega)
        (by
          have hidx : (pre ++ [254]).length = pre.length + 1 := by simp
          rw [← hidx]
          exact hih)
      have hfe : fd + (Encoder.handle_continuous_zero_bytes_go fuelz (nz - 62)).length + 1
          = fd + ((Encoder.handle_continuous_zero_bytes_go fuelz (nz - 62)).length + 1) := by
        omega
      rw [hfe] at hstep
      have hrep : List.replicate 62 (Tok.rank 0) ++
          (List.replicate (nz - 62) (Tok.rank 0) ++ cont)
          = List.replicate nz (Tok.rank 0) ++ cont := by
        rw [← List.append_assoc, ← List.replicate_add]
        have : 62 + (nz - 62) = nz := by omega
        rw [this]
      rw [hrep] at hstep
      have hlc : (254 :: Encoder.handle_continuous_zero_bytes_go fuelz (nz - 62)).length
          = (Encoder.handle_continuous_zero_bytes_go fuelz (nz - 62)).length + 1 := by
        simp
      rw [hlc]
      exact hstep

lemma enb_break (rest : List Tok) :
    Encoder.encode_next_bytes (Tok.brk :: rest) = .ok ([255], rest) := rfl

lemma enb_zeros (t : Tok) (rest : List Tok) (hbrk : t ≠ Tok.brk)
    (hclz : 2 ≤ Encoder.count_leading_zeros (t :: rest)) :
    Encoder.encode_next_bytes (t :: rest)
      = .ok (Encoder.handle_continuous_zero_bytes (Encoder.count_leading_zeros (t :: rest)),
             (t :: rest).drop (Encoder.count_leading_zeros (t :: rest))) := by
  simp only [Encoder.encode_next_bytes]
  rw [if_neg (show ¬ Encoder.is_break_token t = true by
    cases t with
    | rank v => simp [Encoder.is_break_token, Tok.is_break]
    | explicit v => simp [Encoder.is_break_token, Tok.is_break]
    | brk => exact absurd rfl hbrk)]
  rw [if_pos hclz]

lemma enb_double (r1 r2 : Nat) (h1 : r1 < 8) (h2 : r2 < 8) (rest2 : List Tok)
    (hclz : ¬ 2 ≤ Encoder.count_leading_zeros (Tok.rank r1 :: Tok.rank r2 :: rest2)) :
    Encoder.encode_next_bytes (Tok.rank r1 :: Tok.rank r2 :: rest2)
      = .ok ([64 + 8 * r1 + r2], rest2) := by
  simp only [Encoder.encode_next_bytes]
  rw [if_neg (show ¬ Encoder.is_break_token (Tok.rank r1) = true by
    simp [Encoder.is_break_token, Tok.is_break])]
  rw [if_neg hclz]
  rw [if_pos (show Encoder.check_double_byte (Tok.rank r1) (Tok.rank r2) = true by
    simp only [Encoder.check_double_byte, Tok.is_rank, Tok.val]
    simp
    omega)]
  simp only [Encoder.handle_double_byte, Tok.val]
  rw [if_pos (And.intro (show r1 ≤ 7 by omega) (show r2 ≤ 7 by omega))]
  rw [double_byte_val r1 r2 (by omega) (by omega)]
  rfl

lemma enb_single_rank (r : Nat) (hr : r ≤ 63) (rest : List Tok)
    (hclz : ¬ 2 ≤ Encoder.count_leading_zeros (Tok.rank r :: rest))
    (hdbl : ∀ t2 rest2, rest = t2 :: rest2 →
      ¬ Encoder.check_double_byte (Tok.rank r) t2 = true) :
    Encoder.encode_next_bytes (Tok.rank r :: rest) = .ok ([r], rest) := by
  simp only [Encoder.encode_next_bytes]
  rw [if_neg (show ¬ Encoder.is_break_token (Tok.rank r) = true by
    simp [Encoder.is_break_token, Tok.is_break])]
  rw [if_neg hclz]
  cases rest with
  | nil =>
    rw [if_pos (show (Tok.rank r).is_rank = true by simp [Tok.is_rank])]
    simp only [Encoder.handle_rank_byte, Tok.val]
    rw [if_pos hr]
    simp [Nat.zero_or, Except.map]
  | cons t2 rest2 =>
    dsimp only
    rw [if_neg (hdbl t2 rest2 rfl)]
    rw [if_pos (show (Tok.rank r).is_rank = true by simp [Tok.is_rank])]
    simp only [Encoder.handle_rank_byte, Tok.val]
    rw [if_pos hr]
    simp [Nat.zero_or, Except.map]

lemma enb_explicit_tok (v : Nat) (bs : List Nat) (rest : List Tok)
    (henc : Encoder.encode_explicit_token (Tok.explicit v) = .ok bs) :
    Encoder.encode_next_bytes (Tok.explicit v :: rest) = .ok (bs, rest) := by
  simp only [Encoder.encode_next_bytes]
  rw [if_neg (show ¬ Encoder.is_break_token (Tok.explicit v) = true by
    simp [Encoder.is_break_token, Tok.is_break])]
  rw [if_neg (show ¬ 2 ≤ Encoder.count_leading_zeros (Tok.explicit v :: rest) by
    simp [Encoder.count_leading_zeros, Tok.is_rank])]
  cases rest with
  | nil =>
    rw [if_neg (show ¬ (Tok.explicit v).is_rank = true by simp [Tok.is_rank])]
    rw [henc]
    rfl
  | cons t2 rest2 =>
    dsimp only
    rw [if_neg (show ¬ Encoder.check_double_byte (Tok.explicit v) t2 = true by
      simp [Encoder.check_double_byte, Tok.is_rank])]
    rw [if_neg (show ¬ (Tok.explicit v).is_rank = true by simp [Tok.is_rank])]
    rw [henc]
    rfl

lemma eet_len (v : Nat) (bs : List Nat) (hv : v < 134217728)
    (henc : Encoder.encode_explicit_token (Tok.explicit v) = .ok bs) : 2 ≤ bs.length := by
  by_cases h13 : v < 8192
  · rw [eet_2 v h13] at henc
    simp only [Except.ok.injEq] at henc
    subst henc
    simp
  · by_cases h20 : v < 1048576
    · rw [eet_3 v (by omega) h20] at henc
      simp only [Except.ok.injEq] at henc
      subst henc
      simp
    · rw [eet_4 v (by omega) hv] at henc
      simp only [Except.ok.injEq] at henc
      subst henc
      simp

lemma encode_decode_groups : ∀ (n : Nat) (S : List Tok), S.length ≤ n → (∀ t ∈ S, t.valid) →
    ∃ g, (∀ fe, S.length ≤ fe → Encoder.encode_loop fe S = .ok g) ∧
      ∀ pre, Decoder.decode_loop g.length (pre ++ g) pre.length = .ok S := by
  intro n
  induction n with
  | zero =>
    intro S hlen hval
    have hS : S = [] := by
      cases S with
      | nil => rfl
      | cons t rest => simp at hlen
    subst hS
    exact ⟨[], fun fe _ => by cases fe <;> rfl, fun pre => by simp [Decoder.decode_loop]⟩
  | succ n ih =>
    intro S hlen hval
    cases S with
    | nil => exact ⟨[], fun fe _ => by cases fe <;> rfl, fun pre => by simp [Decoder.decode_loop]⟩
    | cons t rest =>
      simp only [List.length_cons] at hlen
      by_cases hbrk : t = Tok.brk
      · subst hbrk
        obtain ⟨g2, hENC, hDEC⟩ := ih rest (by omega) (fun x hx => hval x (by simp [hx]))
        refine ⟨255 :: g2, ?_, ?_⟩
        · intro fe hfe
          simp only [List.length_cons] at hfe
          cases fe with
          | zero => omega
          | succ fe =>
            simp only [Encoder.encode_loop]
            rw [enb_break rest]
            show (match Encoder.encode_loop fe rest with
              | Except.error e => Except.error e
              | Except.ok tl => Except.ok ([255] ++ tl)) = Except.ok (255 :: g2)
            rw [hENC fe (by omega)]
            rfl
        · intro pre
          have hrec : Decoder.decode_loop g2.length (pre ++ 255 :: g2) (pre.length + 1)
              = .ok rest := by
            have h := hDEC (pre ++ [255])
            simp only [List.append_assoc, List.singleton_append, List.length_append,
              List.length_singleton] at h
            exact h
          have hstep := decode_loop_step (pre ++ 255 :: g2) pre.length g2.length
            [Tok.brk] (pre.length + 1) rest
            (by simp only [List.length_append, List.length_cons]; omega)
            (hnb_break pre g2) (by omega) hrec
          rw [List.length_cons]
          exact hstep
      · by_cases hclz : 2 ≤ Encoder.count_leading_zeros (t :: rest)
        · obtain ⟨g2, hENC, hDEC⟩ :=
            ih ((t :: rest).drop (Encoder.count_leading_zeros (t :: rest)))
              (by
                have h1 := clz_le_length (t :: rest)
                simp only [List.length_cons] at h1
                simp only [List.length_drop, List.length_cons]
                omega)
              (fun x hx => hval x (List.mem_of_mem_drop hx))
          refine ⟨Encoder.handle_continuous_zero_bytes
              (Encoder.count_leading_zeros (t :: rest)) ++ g2, ?_, ?_⟩
          · intro fe hfe
            simp only [List.length_cons] at hfe
            cases fe with
            | zero => omega
            | succ fe =>
              simp only [Encoder.encode_loop]
              rw [enb_zeros t rest hbrk hclz]
              show (match Encoder.encode_loop fe
                  ((t :: rest).drop (Encoder.count_leading_zeros (t :: rest))) with
                | Except.error e => Except.error e
                | Except.ok tl => Except.ok (Encoder.handle_continuous_zero_bytes
                    (Encoder.count_leading_zeros (t :: rest)) ++ tl))
                = Except.ok (Encoder.handle_continuous_zero_bytes
                    (Encoder.count_leading_zeros (t :: rest)) ++ g2)
              rw [hENC fe (by
                simp only [List.length_drop, List.length_cons]
                omega)]
          · intro pre
            simp only [Encoder.handle_continuous_zero_bytes]
            have hpre := hDEC (pre ++ Encoder.handle_continuous_zero_bytes_go
              (Encoder.count_leading_zeros (t :: rest))
              (Encoder.count_leading_zeros (t :: rest)))
            have hz := decode_zeros (Encoder.count_leading_zeros (t :: rest))
              (Encoder.count_leading_zeros (t :: rest)) (le_refl _) pre g2 g2.length
              ((t :: rest).drop (Encoder.count_leading_zeros (t :: rest))) hpre
            have hfinal : List.replicate (Encoder.count_leading_zeros (t :: rest)) (Tok.rank 0)
                ++ (t :: rest).drop (Encoder.count_leading_zeros (t :: rest)) = t :: rest := by
              conv_rhs => rw [← List.take_append_drop
                (Encoder.count_leading_zeros (t :: rest)) (t :: rest)]
              rw [clz_take]
            rw [hfinal] at hz
            rw [← List.append_assoc, List.length_append, Nat.add_comm]
            exact hz
        · cases t with
          | brk => exact absurd rfl hbrk
          | explicit v =>
            have hv : v < 134217728 := by
              have h := hval (Tok.explicit v) (by simp)
              have h2 : v < 2 ^ 27 := h
              norm_num at h2
              exact h2
            obtain ⟨bs, henc⟩ : ∃ bs, Encoder.encode_explicit_token (Tok.explicit v)
                = .ok bs := by
              by_cases h13 : v < 8192
              · exact ⟨_, eet_2 v h13⟩
              · by_cases h20 : v < 1048576
                · exact ⟨_, eet_3 v (by omega) h20⟩
                · exact ⟨_, eet_4 v (by omega) hv⟩
            obtain ⟨g2, hENC, hDEC⟩ := ih rest (by omega) (fun x hx => hval x (by simp [hx]))
            refine ⟨bs ++ g2, ?_, ?_⟩
            · intro fe hfe
              simp only [List.length_cons] at hfe
              cases fe with
              | zero => omega
              | succ fe =>
                simp only [Encoder.encode_loop]
                rw [enb_explicit_tok v bs rest henc]
                show (match Encoder.encode_loop fe rest with
                  | Except.error e => Except.error e
                  | Except.ok tl => Except.ok (bs ++ tl)) = Except.ok (bs ++ g2)
                rw [hENC fe (by omega)]
            · intro pre
              have hblen := eet_len v bs hv henc
              have hrec : Decoder.decode_loop g2.length (pre ++ bs ++ g2)
                  (pre.length + bs.length) = .ok rest := by
                have h := hDEC (pre ++ bs)
                rw [List.length_append] at h
                exact h
              have hstep := decode_loop_step (pre ++ bs ++ g2) pre.length g2.length
                [Tok.explicit v] (pre.length + bs.length) rest
                (by simp only [List.length_append]; omega)
                (hnb_literal pre g2 v bs hv henc)
                (by omega)
                hrec
              have hmono := decode_loop_mono_le (g2.length + 1) ((bs ++ g2).length)
                (pre ++ bs ++ g2) pre.length ([Tok.explicit v] ++ rest)
                (by simp only [List.length_append]; omega) hstep
              rw [← List.append_assoc]
              exact hmono
          | rank r =>
            have hr64 : r < 64 := hval (Tok.rank r) (by simp)
            by_cases hdb : ∃ r2 rest2, rest = Tok.rank r2 :: rest2 ∧ r < 8 ∧ r2 < 8
            · obtain ⟨r2, rest2, hrest, hr8, hr28⟩ := hdb
              subst hrest
              simp only [List.length_cons] at hlen
              obtain ⟨g2, hENC, hDEC⟩ := ih rest2 (by omega)
                (fun x hx => hval x (by simp [hx]))
              refine ⟨(64 + 8 * r + r2) :: g2, ?_, ?_⟩
              · intro fe hfe
                simp only [List.length_cons] at hfe
                cases fe with
                | zero => omega
                | succ fe =>
                  simp only [Encoder.encode_loop]
                  rw [enb_double r r2 hr8 hr28 rest2 hclz]
                  show (match Encoder.encode_loop fe rest2 with
                    | Except.error e => Except.error e
                    | Except.ok tl => Except.ok ([64 + 8 * r + r2] ++ tl))
                    = Except.ok ((64 + 8 * r + r2) :: g2)
                  rw [hENC fe (by omega)]
                  rfl
              · intro pre
                have hrec : Decoder.decode_loop g2.length
                    (pre ++ (64 + 8 * r + r2) :: g2) (pre.length + 1) = .ok rest2 := by
                  have h := hDEC (pre ++ [64 + 8 * r + r2])
                  simp only [List.append_assoc, List.singleton_append, List.length_append,
                    List.length_singleton] at h
                  exact h
                have hstep := decode_loop_step (pre ++ (64 + 8 * r + r2) :: g2) pre.length
                  g2.length [Tok.rank r, Tok.rank r2] (pre.length + 1) rest2
                  (by simp only [List.length_append, List.length_cons]; omega)
                  (hnb_double pre g2 r r2 hr8 hr28) (by omega) hrec
                rw [List.length_cons]
                exact hstep
            · have hdbl : ∀ t2 rest2, rest = t2 :: rest2 →
                  ¬ Encoder.check_double_byte (Tok.rank r) t2 = true := by
                intro t2 rest2 hrest hc
                apply hdb
                cases t2 with
                | rank r2 =>
                  simp only [Encoder.check_double_byte, Tok.is_rank, Tok.val,
                    Bool.and_eq_true, decide_eq_true_eq] at hc
                  exact ⟨r2, rest2, hrest, by omega, by omega⟩
                | explicit v2 =>
                  simp [Encoder.check_double_byte, Tok.is_rank] at hc
                | brk =>
                  simp [Encoder.check_double_byte, Tok.is_rank] at hc
              obtain ⟨g2, hENC, hDEC⟩ := ih rest (by omega)
                (fun x hx => hval x (by simp [hx]))
              refine ⟨r :: g2, ?_, ?_⟩
              · intro fe hfe
                simp only [List.length_cons] at hfe
                cases fe with
                | zero => omega
                | succ fe =>
                  simp only [Encoder.encode_loop]
                  rw [enb_single_rank r (by omega) rest hclz hdbl]
                  show (match Encoder.encode_loop fe rest with
                    | Except.error e => Except.error e
                    | Except.ok tl => Except.ok ([r] ++ tl)) = Except.ok (r :: g2)
                  rw [hENC fe (by omega)]
                  rfl
              · intro pre
                have hrec : Decoder.decode_loop g2.length (pre ++ r :: g2)
                    (pre.length + 1) = .ok rest := by
                  have h := hDEC (pre ++ [r])
                  simp only [List.append_assoc, List.singleton_append, List.length_append,
                    List.length_singleton] at h
                  exact h
                have hstep := decode_loop_step (pre ++ r :: g2) pre.length g2.length
                  [Tok.rank r] (pre.length + 1) rest
                  (by simp only [List.length_append, List.length_cons]; omega)
                  (hnb_rank pre g2 r hr64) (by omega) hrec
                rw [List.length_cons]
                exact hstep

/-- C3: For every window size `W` representable as a literal (`W < 2^27`) and every
symbol sequence `S` whose values fit the format (every rank `< 64`, every explicit
`< 2^27`), unpacking the packed bytes returns exactly `(S, W)`:
`decode_bytes (encode_tokens S W) = .ok (S, W)`. -/
theorem byte_format_roundtrip (S : List Tok) (W : Nat) (hW : W < 2 ^ 27)
    (hS : ∀ t ∈ S, t.valid) :
    (Encoder.encode_tokens S W).bind Decoder.decode_bytes = .ok (S, W) := by
  have hW2 : W < 134217728 := by norm_num at hW; exact hW
  obtain ⟨wbs, henc⟩ : ∃ wbs, Encoder.encode_explicit_token (Tok.explicit W)
      = .ok wbs := by
    by_cases h13 : W < 8192
    · exact ⟨_, eet_2 W h13⟩
    · by_cases h20 : W < 1048576
      · exact ⟨_, eet_3 W (by omega) h20⟩
      · exact ⟨_, eet_4 W (by omega) hW2⟩
  obtain ⟨g, hENC, hDEC⟩ := encode_decode_groups S.length S (le_refl _) hS
  have hbody := hENC S.length (le_refl _)
  have hpack : Encoder.encode_tokens S W = .ok (wbs ++ g) := by
    simp only [Encoder.encode_tokens]
    rw [henc]
    show (match Encoder.encode_loop S.length S with
      | Except.error e => Except.error e
      | Except.ok body => Except.ok (wbs ++ body)) = Except.ok (wbs ++ g)
    rw [hbody]
  rw [hpack]
  show Decoder.decode_bytes (wbs ++ g) = Except.ok (S, W)
  have hl := eet_len W wbs hW2 henc
  have hne : ¬ (wbs ++ g = []) := by
    intro hc
    have h0 : wbs = [] ∧ g = [] := List.append_eq_nil.mp hc
    rw [h0.1] at hl
    simp at hl
  simp only [Decoder.decode_bytes]
  rw [if_neg hne, extract_ok W hW2 wbs g henc]
  show (match Decoder.decode_loop (wbs ++ g).length (wbs ++ g) wbs.length with
    | Except.error e => Except.error e
    | Except.ok tokens => Except.ok (tokens, W)) = Except.ok (S, W)
  rw [decode_loop_mono_le g.length ((wbs ++ g).length) (wbs ++ g) wbs.length S
    (by simp only [List.length_append]; omega) (hDEC wbs)]

/-- Witness for C3: a concrete round trip through `encode_tokens` and `decode_bytes`
with a rank, a break and an explicit symbol at window size 64. -/
theorem byte_format_roundtrip_witness :
    (Encoder.encode_tokens [Tok.rank 3, Tok.brk, Tok.explicit 5] 64).bind
        Decoder.decode_bytes
      = Except.ok ([Tok.rank 3, Tok.brk, Tok.explicit 5], 64) :=
  byte_format_roundtrip [Tok.rank 3, Tok.brk, Tok.explicit 5] 64 (by decide) (by decide)
